import Mathlib

/- Verification development for the pyquafu circuit IR engine:
   the gate algebra (tensor reorder and controlled-gate embedding from
   src/quafu/elements/quantum_element/quantum_gate.py), the layering
   scheduler and the OpenQASM codec (src/quafu/quantum_circuit.py).
   Python numpy arrays of complex entries are embedded as functions on
   flat indices with a generic entry type: the embedded operations only
   move entries around and write the constants 0 and 1, so nothing in
   them depends on the entry field, and every theorem proved for a
   generic entry type in particular covers complex entries. -/

namespace Quafu


/-! ## Gate algebra (quantum_gate.py)

`reorder_matrix(matrix, pos)` reshapes a `2^k × 2^k` matrix into a
rank-`2k` tensor of binary axes (row-major, so axis 0 of each group is
the most significant bit of the flat index), permutes the row-axis group
and the column-axis group by `argsort(pos)`, and reshapes back. -/

/-- Square matrices of side `2^k` as functions on flat row/column indices;
entries at indices `≥ 2^k` are irrelevant junk, matching the fact that a
numpy array simply has no such entries. -/
def QMatrix (α : Type) : Type := Nat → Nat → α

/-- Binary digit `l` (row-major: digit 0 is the most significant of `k`
digits) of the flat index `x`.  This is what indexing the reshaped
`[2]*k`-shaped view of a length-`2^k` axis at coordinate `l` reads. -/
def bitsOf (k x l : Nat) : Nat := x / 2 ^ (k - 1 - l) % 2

/-- Flat index denoted by `k` binary coordinates (row-major), inverse of
`bitsOf`: the flat position of coordinate vector `b` in a `[2]*k` reshape. -/
def valOf (k : Nat) (b : Nat → Nat) : Nat :=
  ∑ l ∈ Finset.range k, b l * 2 ^ (k - 1 - l)

/-- Embedding of `np.argsort(pos)`: the list of indices of `pos` ordered so
that reading `pos` at them is sorted.  numpy uses an (unstable) comparison
sort on the keys; on lists with pairwise-distinct keys — the only ones the
source ever passes — every comparison sort returns the same result, so a
deterministic sort is a faithful embedding. -/
def argsort (pos : List Nat) : List Nat :=
  (List.range pos.length).insertionSort (fun a b => pos.getD a 0 ≤ pos.getD b 0)

/-- Reshape of a `2^k`-sided matrix into a rank-`2k` tensor of binary axes
(first the `k` row axes, then the `k` column axes); both index groups are
given as coordinate functions. -/
def reshapeToTensor (k : Nat) (M : QMatrix α) : (Nat → Nat) → (Nat → Nat) → α :=
  fun b c => M (valOf k b) (valOf k c)

/-- Embedding of `np.transpose(tensorm, s ++ (s.map (+k)))` acting on a
rank-`2k` tensor: output axis `r` of each group is input axis `s[r]` of the
same group, i.e. input axis `m` is read from output axis `s.indexOf m`. -/
def transposeTensor (s : List Nat) (T : (Nat → Nat) → (Nat → Nat) → α) :
    (Nat → Nat) → (Nat → Nat) → α :=
  fun b c => T (fun m => b (s.indexOf m)) (fun m => c (s.indexOf m))

/-- Reshape a rank-`2k` binary tensor back into a `2^k`-sided matrix. -/
def reshapeToMatrix (k : Nat) (T : (Nat → Nat) → (Nat → Nat) → α) : QMatrix α :=
  fun x y => T (bitsOf k x) (bitsOf k y)

/-- Embedding of `reorder_matrix(matrix, pos)` from quantum_gate.py:
reshape to a rank-`2k` tensor, transpose both axis groups by
`argsort(pos)`, reshape back. -/
def reorder_matrix (M : QMatrix α) (pos : List Nat) : QMatrix α :=
  let qnum := pos.length
  let inds := argsort pos
  reshapeToMatrix qnum (transposeTensor inds (reshapeToTensor qnum M))

/-- Embedding of `np.eye(dim, dtype=complex)`; the side is tracked by the
caller (entries beyond it are irrelevant). -/
def eye [Zero α] [One α] : QMatrix α :=
  fun i j => if i = j then 1 else 0

/-- The full matrix computed by `ControlledGate.__init__` in
quantum_gate.py for control qubits `ctrls`, target qubits `targs` and
target-only matrix `tar_matrix` (of side `2^len(targs)`):

    targ_dim = 2 ** len(targs); ctrl_dim = 2 ** len(ctrls)
    dim = targ_dim + ctrl_dim
    _matrix = np.eye(dim); control_dim = 2 ** len(pos) - targ_dim
    _matrix[control_dim:, control_dim:] = tar_matrix
    _matrix = reorder_matrix(_matrix, pos)        # pos = ctrls + targs

Returns `none` when the numpy calls raise: the block assignment needs the
slice side `dim - min(control_dim, dim)` to equal the side `targ_dim` of
`tar_matrix` (numpy broadcasting cannot bridge the gap, since
`targ_dim = 2^t ≥ 2` for a nonempty target list), and the reshape inside
`reorder_matrix` needs `dim = 2^(c+t)`. -/
def controlled_matrix [Zero α] [One α] (ctrls targs : List Nat)
    (tar_matrix : QMatrix α) : Option (QMatrix α) :=
  let targ_dim := 2 ^ targs.length
  let ctrl_dim := 2 ^ ctrls.length
  let dim := targ_dim + ctrl_dim
  let pos := ctrls ++ targs
  let control_dim := 2 ^ pos.length - targ_dim
  if dim - min control_dim dim = targ_dim ∧ dim = 2 ^ pos.length then
    some (reorder_matrix
      (fun i j =>
        if control_dim ≤ i ∧ control_dim ≤ j then
          tar_matrix (i - control_dim) (j - control_dim)
        else eye i j)
      pos)
  else none

/-! ### argsort of a permutation list -/

/-- The inverse of a permutation `p` of `0..k-1` presented as a position
list: entry `m` is the index at which `p` holds `m`. -/
def invList (p : List Nat) : List Nat :=
  (List.range p.length).map fun m => p.indexOf m

/-! ### Behaviour of reorder on flat indices -/

/-- The flat-index transformation realised by `reorder_matrix ... pos`:
entry `(x, y)` of the reordered matrix is entry
`(reorderIdx pos x, reorderIdx pos y)` of the input. -/
def reorderIdx (pos : List Nat) (x : Nat) : Nat :=
  valOf pos.length (fun m => bitsOf pos.length x ((argsort pos).indexOf m))

/-! ## Gate model

Modelled from the spec: the concrete gate classes (`HGate`, …, `SwapGate`,
`Barrier`) live in `quafu/elements/element_gates.py` and
`quantum_element/__init__.py`, which are not among the provided sources —
only the abstract hierarchy (quantum_gate.py) and every construction and
use site (quantum_circuit.py) are.  Following spec §3/§4.3 and the use
sites: `H,X,Y,Z` are fixed single-qubit gates with one position;
`RX,RY,RZ` are parametric single-qubit gates with one position and one
real parameter (Python floats are exact binary rationals and the only
operations ever applied to a parameter are comparison with zero and exact
printing/reading, so parameters are carried as rationals); `CX,CY,CZ,SWAP`
are fixed two-qubit gates holding the ordered position pair the builders
pass (`[ctrl, tar]` / `[q1, q2]`); `Barrier` holds its position list.
Gate `name` attributes are the upper-case mnemonics that the spec's export
examples lower-case to `h, x, …, swap`. -/

inductive QGate : Type
  | HGate (pos : Nat)
  | XGate (pos : Nat)
  | YGate (pos : Nat)
  | ZGate (pos : Nat)
  | RXGate (pos : Nat) (para : ℚ)
  | RYGate (pos : Nat) (para : ℚ)
  | RZGate (pos : Nat) (para : ℚ)
  | CXGate (p0 p1 : Nat)
  | CYGate (p0 p1 : Nat)
  | CZGate (p0 p1 : Nat)
  | SwapGate (p0 p1 : Nat)
  | Barrier (pos : List Nat)
  deriving DecidableEq

namespace QGate

/-- Modelled from the spec: the `name` class attribute of each concrete
gate class (upper-case mnemonic, spec §4.3 lower-cases it on export). -/
def name : QGate → List Char
  | HGate _ => ['H']
  | XGate _ => ['X']
  | YGate _ => ['Y']
  | ZGate _ => ['Z']
  | RXGate _ _ => ['R', 'X']
  | RYGate _ _ => ['R', 'Y']
  | RZGate _ _ => ['R', 'Z']
  | CXGate _ _ => ['C', 'X']
  | CYGate _ _ => ['C', 'Y']
  | CZGate _ _ => ['C', 'Z']
  | SwapGate _ _ => ['S', 'W', 'A', 'P']
  | Barrier _ => ['B', 'a', 'r', 'r', 'i', 'e', 'r']

/-- The gate's operand positions in declared order (`pos` attribute; a
single int for single-qubit gates, a list for the others). -/
def positions : QGate → List Nat
  | HGate p => [p]
  | XGate p => [p]
  | YGate p => [p]
  | ZGate p => [p]
  | RXGate p _ => [p]
  | RYGate p _ => [p]
  | RZGate p _ => [p]
  | CXGate a b => [a, b]
  | CYGate a b => [a, b]
  | CZGate a b => [a, b]
  | SwapGate a b => [a, b]
  | Barrier ps => ps

/-- `isinstance(gate, SingleQubitGate)`. -/
def isSingle : QGate → Bool
  | HGate _ | XGate _ | YGate _ | ZGate _ => true
  | RXGate _ _ | RYGate _ _ | RZGate _ _ => true
  | _ => false

/-- `isinstance(gate, TwoQubitGate)` (all concrete two-qubit gates are
`FixedTwoQubitGate`s in this revision). -/
def isTwo : QGate → Bool
  | CXGate _ _ | CYGate _ _ | CZGate _ _ | SwapGate _ _ => true
  | _ => false

/-- `isinstance(gate, Barrier)`. -/
def isBarrier : QGate → Bool
  | Barrier _ => true
  | _ => false

/-- The single position of a single-qubit gate (`gate.pos` as an int). -/
def singlePos : QGate → Nat
  | HGate p => p
  | XGate p => p
  | YGate p => p
  | ZGate p => p
  | RXGate p _ => p
  | RYGate p _ => p
  | RZGate p _ => p
  | _ => 0

end QGate

/-! ## Circuit container and builder surface (quantum_circuit.py) -/

/-- Embedding of a Python dict from qubit to classical bit: an
insertion-ordered association list with unique keys.  `dictInsert` is
`d[k] = v`: updating an existing key keeps its position, a new key is
appended. -/
def dictInsert (m : List (Nat × Nat)) (k v : Nat) : List (Nat × Nat) :=
  if m.any (fun kv => kv.1 = k) then
    m.map fun kv => if kv.1 = k then (k, v) else kv
  else m ++ [(k, v)]

/-- Embedding of `dict(pairs)` built left to right, hence of
`dict(zip(ks, vs))` via `pydict (ks.zip vs)`. -/
def pydict (pairs : List (Nat × Nat)) : List (Nat × Nat) :=
  pairs.foldl (fun m kv => dictInsert m kv.1 kv.2) []

/-- The circuit container: register size, shot count, tomography flag,
gate list (program order), measurement map, and the cached openqasm text.
The Python object also carries fields irrelevant to the IR (`backend`,
`_compile`) and two caches rewritten by `layered_circuit`
(`circuit`, `used_qubits`); the derived layout is recomputed on demand
here, so those caches are not part of the state. -/
structure QuantumCircuit where
  num : Nat
  shots : Nat
  tomo : Bool
  gates : List QGate
  measures : List (Nat × Nat)
  openqasm : List Char
  deriving DecidableEq

namespace QuantumCircuit

/-- `QuantumCircuit(num)`: `shots = 1000`, no gates, measurement map
defaulted to the identity `dict(zip(range(num), range(num)))`. -/
def init (num : Nat) : QuantumCircuit :=
  { num := num
    shots := 1000
    tomo := false
    gates := []
    measures := (List.range num).map fun i => (i, i)
    openqasm := [] }

/-- `h(pos)`: appends an `HGate`, returns `self`.  No validation of `pos`
is performed by the source. -/
def h (c : QuantumCircuit) (pos : Nat) : QuantumCircuit :=
  { c with gates := c.gates ++ [QGate.HGate pos] }

/-- `x(pos)`. -/
def x (c : QuantumCircuit) (pos : Nat) : QuantumCircuit :=
  { c with gates := c.gates ++ [QGate.XGate pos] }

/-- `y(pos)`. -/
def y (c : QuantumCircuit) (pos : Nat) : QuantumCircuit :=
  { c with gates := c.gates ++ [QGate.YGate pos] }

/-- `z(pos)`. -/
def z (c : QuantumCircuit) (pos : Nat) : QuantumCircuit :=
  { c with gates := c.gates ++ [QGate.ZGate pos] }

/-- `rx(pos, para)`: appends only when `para != 0.`. -/
def rx (c : QuantumCircuit) (pos : Nat) (para : ℚ) : QuantumCircuit :=
  if para ≠ 0 then { c with gates := c.gates ++ [QGate.RXGate pos para] } else c

/-- `ry(pos, para)`: appends only when `para != 0.`. -/
def ry (c : QuantumCircuit) (pos : Nat) (para : ℚ) : QuantumCircuit :=
  if para ≠ 0 then { c with gates := c.gates ++ [QGate.RYGate pos para] } else c

/-- `rz(pos, para)`: appends only when `para != 0.`. -/
def rz (c : QuantumCircuit) (pos : Nat) (para : ℚ) : QuantumCircuit :=
  if para ≠ 0 then { c with gates := c.gates ++ [QGate.RZGate pos para] } else c

/-- `cnot(ctrl, tar)`: appends `CXGate([ctrl, tar])`. -/
def cnot (c : QuantumCircuit) (ctrl tar : Nat) : QuantumCircuit :=
  { c with gates := c.gates ++ [QGate.CXGate ctrl tar] }

/-- `cy(ctrl, tar)`. -/
def cy (c : QuantumCircuit) (ctrl tar : Nat) : QuantumCircuit :=
  { c with gates := c.gates ++ [QGate.CYGate ctrl tar] }

/-- `cz(ctrl, tar)`. -/
def cz (c : QuantumCircuit) (ctrl tar : Nat) : QuantumCircuit :=
  { c with gates := c.gates ++ [QGate.CZGate ctrl tar] }

/-- `swap(q1, q2)`. -/
def swap (c : QuantumCircuit) (q1 q2 : Nat) : QuantumCircuit :=
  { c with gates := c.gates ++ [QGate.SwapGate q1 q2] }

/-- `barrier(qlist)`. -/
def barrier (c : QuantumCircuit) (qlist : List Nat) : QuantumCircuit :=
  { c with gates := c.gates ++ [QGate.Barrier qlist] }

/-- `measure(pos, shots, cbits, tomo)`:

    self.measures = dict(zip(pos, range(len(pos)))); self.shots = shots
    self.tomo = tomo
    if cbits:
        if len(cbits) == len(self.measures):
            self.measures = dict(zip(pos, cbits))
        else: raise CircuitError(...)

The returned Bool is `true` exactly when `CircuitError` is raised; the
returned circuit is the state of `self` at that point (the first three
assignments have already happened when the error is raised). -/
def measure (c : QuantumCircuit) (pos : List Nat) (shots : Nat)
    (cbits : List Nat) (tomo : Bool) : QuantumCircuit × Bool :=
  let c1 := { c with measures := pydict (pos.zip (List.range pos.length))
                     shots := shots
                     tomo := tomo }
  if cbits ≠ [] then
    if cbits.length = c1.measures.length then
      ({ c1 with measures := pydict (pos.zip cbits) }, false)
    else (c1, true)
  else (c1, false)

end QuantumCircuit

/-! ## Layering scheduler (`QuantumCircuit.layered_circuit`)

The scheduler keeps one list of cells per register qubit (`gateQlist`),
walks the gate list once, left-justifies the wires of every multi-qubit
span to a common depth, pads all wires to the global maximum depth, keeps
only active qubits, sorts them, and prefixes each surviving row with its
original qubit index.  A row of the resulting layout is modelled as the
pair of that index column and the cell list. -/

/-- A cell of the layout: a gate reference or the empty placeholder
(`None`). -/
abbrev Cell := Option QGate

/-- `min(gate.pos)` (0 on an empty list, where Python would raise; the
scheduler embedding guards non-emptiness separately). -/
def minPos (g : QGate) : Nat :=
  match g.positions with
  | [] => 0
  | p :: ps => ps.foldl min p

/-- `max(gate.pos)`. -/
def maxPos (g : QGate) : Nat :=
  match g.positions with
  | [] => 0
  | p :: ps => ps.foldl max p

/-- `gateQlist[j].append(x)`. -/
def appendAt (rows : List (List Cell)) (j : Nat) (x : Cell) :
    List (List Cell) :=
  rows.set j (rows.getD j [] ++ [x])

/-- `for i in range(k): row.insert(len(row) - 1, None)` with the length
taken before the loop: `k` placeholders are inserted just before the cell
appended last. -/
def insertNones (row : List Cell) (k : Nat) : List Cell :=
  row.take (row.length - 1) ++ List.replicate k none ++ row.drop (row.length - 1)

/-- One iteration of the depth-equalisation loop body for wire `j`:

    layerj = len(gateQlist[j]); pos = layerj - 1
    if not layerj == maxlayer:
        for i in range(abs(layerj - maxlayer)): gateQlist[j].insert(pos, None) -/
def padWireTo (rows : List (List Cell)) (j maxlayer : Nat) : List (List Cell) :=
  let layerj := (rows.getD j []).length
  if layerj = maxlayer then rows
  else rows.set j (insertNones (rows.getD j []) (maxlayer - layerj))

/-- `maxlayer = max([len(gateQlist[j]) for j in range(pos1, pos2 + 1)])`. -/
def spanMax (rows : List (List Cell)) (pos1 pos2 : Nat) : Nat :=
  ((List.range' pos1 (pos2 + 1 - pos1)).map
    fun j => (rows.getD j []).length).foldl max 0

/-- Processing of one gate by the scheduler loop body. -/
def layerStep (rows : List (List Cell)) (g : QGate) : List (List Cell) :=
  if g.isSingle then
    appendAt rows g.singlePos (some g)
  else
    let pos1 := minPos g
    let pos2 := maxPos g
    let rows1 := appendAt rows pos1 (some g)
    let rows2 := (List.range' (pos1 + 1) (pos2 - pos1)).foldl
      (fun r j => appendAt r j none) rows1
    let maxlayer := spanMax rows2 pos1 pos2
    (List.range' pos1 (pos2 + 1 - pos1)).foldl
      (fun r j => padWireTo r j maxlayer) rows2

/-- Wire rows after the scheduler has processed the first `n` gates,
starting from `num` empty lists. -/
def rowsAfter (c : QuantumCircuit) (n : Nat) : List (List Cell) :=
  (c.gates.take n).foldl layerStep (List.replicate c.num [])

/-- The final per-qubit wire rows (all gates processed). -/
def wireRows (c : QuantumCircuit) : List (List Cell) :=
  c.gates.foldl layerStep (List.replicate c.num [])

/-- `maxdepth = max([len(gateQlist[i]) for i in range(num)])`. -/
def maxdepthOf (c : QuantumCircuit) : Nat :=
  ((List.range c.num).map fun i => ((wireRows c).getD i []).length).foldl max 0

/-- A wire padded on the right to the global maximum depth
(`gates.extend([None] * (maxdepth - len(gates)))`). -/
def paddedWire (c : QuantumCircuit) (q : Nat) : List Cell :=
  (wireRows c).getD q [] ++
    List.replicate (maxdepthOf c - ((wireRows c).getD q []).length) (none : Cell)

/-- `if pos not in used_qubits: used_qubits.append(pos)`. -/
def addUsed (used : List Nat) (p : Nat) : List Nat :=
  if p ∈ used then used else used ++ [p]

/-- The `used_qubits` list accumulated by the gate loop: single-qubit
gates mark their position, two-qubit gates mark their explicit operand
positions; barriers mark nothing. -/
def collectUsed : List QGate → List Nat → List Nat
  | [], used => used
  | g :: rest, used =>
    if g.isSingle then collectUsed rest (addUsed used g.singlePos)
    else if g.isTwo then collectUsed rest (g.positions.foldl addUsed used)
    else collectUsed rest used

/-- `used_qubits` after the measurement keys have been merged in. -/
def usedAfterMeasures (c : QuantumCircuit) : List Nat :=
  (c.measures.map Prod.fst).foldl addUsed (collectUsed c.gates [])

/-- `np.sort(used_qubits)`. -/
def sortedUsed (c : QuantumCircuit) : List Nat :=
  (usedAfterMeasures c).insertionSort (· ≤ ·)

/-- Well-formedness of a gate for a register of `num` qubits: a non-empty
position list, every position in range.  Exactly when this fails the
Python scheduler raises (`IndexError` on `gateQlist[pos]`, or `min`/`max`
of an empty sequence). -/
def wfGate (g : QGate) (num : Nat) : Prop :=
  g.positions ≠ [] ∧ ∀ p ∈ g.positions, p < num

instance (g : QGate) (num : Nat) : Decidable (wfGate g num) := by
  unfold wfGate; infer_instance

/-- `layered_circuit()`: the layout as a list of rows, one per active
qubit in ascending qubit order, each row carrying its original qubit
index (the first column that `np.vstack((used_qubits, lc.T)).T` prefixes)
and its padded cell list.  `none` when the Python code would raise: a
qubit position out of range, a barrier with an empty position list, a
measurement key out of range, or an empty register (`max([])`). -/
def layered_circuit (c : QuantumCircuit) :
    Option (List (Nat × List Cell)) :=
  if 0 < c.num ∧ (∀ g ∈ c.gates, wfGate g c.num) ∧
      (∀ km ∈ c.measures, km.1 < c.num) then
    some ((sortedUsed c).map fun q => (q, paddedWire c q))
  else none

/-- The row produced by the equalisation body for one wire. -/
def padRowTo (row : List Cell) (m : Nat) : List Cell :=
  if row.length = m then row else insertNones row (m - row.length)

/-- The column index at which the cell appended for gate number `i`
(0-based program order) landed on wire `q`: the scheduler only ever adds
cells at or after a wire's current end, and the cell placed for the
current gate is the wire's last cell once the step finishes, so its
column is the wire's length after step `i`, minus one. -/
def placedColumn (c : QuantumCircuit) (i q : Nat) : Nat :=
  ((rowsAfter c (i + 1)).getD q []).length - 1

/-- The spec §8 end-to-end example circuit: `H(0)`, `CX(0,1)`,
`measure([0,1], cbits=[0,1])` on two qubits. -/
def bellCircuit : QuantumCircuit :=
  ((((QuantumCircuit.init 2).h 0).cnot 0 1).measure [0, 1] 1000 [0, 1] false).1

/-- The layout `layered_circuit` computes for `bellCircuit`. -/
def bellLayout : List (Nat × List Cell) :=
  [(0, [some (QGate.HGate 0), some (QGate.CXGate 0 1)]),
   (1, [none, none])]

/-! ## OpenQASM codec (to_openqasm / from_openqasm)

Python strings are embedded as `List Char`.  Gate parameters are Python
floats; floats are exact binary rationals, and the only operations the
codec applies to a parameter are printing (`"%s" % para`) and exact
re-reading (`eval`, which round-trips the printed repr), so parameters
travel as rationals and the printer/parser pair below is an exact-
round-trip rendering of that repr/eval pair (the surface syntax is
`num/den`, which Python `eval` also evaluates to the same value by true
division). -/

abbrev Str := List Char

/-- Decimal digit characters. -/
def digitChar : Nat → Char
  | 0 => '0'
  | 1 => '1'
  | 2 => '2'
  | 3 => '3'
  | 4 => '4'
  | 5 => '5'
  | 6 => '6'
  | 7 => '7'
  | 8 => '8'
  | _ => '9'

/-- Little-endian decimal digits of `n`, with structural fuel so that the
definition evaluates inside the kernel; `natDigitsAux_eq` identifies it
with `Nat.digits 10`. -/
def natDigitsAux (fuel n : Nat) : List Nat :=
  match fuel, n with
  | _, 0 => []
  | 0, _ => []
  | fuel + 1, n + 1 => ((n + 1) % 10) :: natDigitsAux fuel ((n + 1) / 10)

/-- Decimal rendering of a natural number (`"%d" % n`). -/
def natToStr (n : Nat) : Str :=
  if n = 0 then ['0'] else ((natDigitsAux n n).map digitChar).reverse

/-- Numeric value of a digit character. -/
def charVal (c : Char) : Nat := c.toNat - 48

/-- `int(s)` on a run of digit characters. -/
def strToNat (s : Str) : Nat :=
  Nat.ofDigits 10 ((s.map charVal).reverse)

/-- Python `text.splitlines()` for text whose only separator is `'\n'`:
split on newlines, with no trailing empty line for text ending in one. -/
def splitlinesAux : Str → Str → List Str
  | [], cur => if cur = [] then [] else [cur.reverse]
  | c :: rest, cur =>
    if c = '\n' then cur.reverse :: splitlinesAux rest []
    else splitlinesAux rest (c :: cur)

def splitlines (s : Str) : List Str := splitlinesAux s []

/-- Python `s.split(sep, 1)`: the part before the first occurrence of
`sep`, and the remainder when `sep` occurs. -/
def splitFirstChar (sep : Char) : Str → Str × Option Str
  | [] => ([], none)
  | c :: rest =>
    if c = sep then ([], some rest)
    else
      let p := splitFirstChar sep rest
      (c :: p.1, p.2)

/-- Python `s.split(sep)` (always one more part than separators). -/
def splitOnCharAux (sep : Char) : Str → Str → List Str
  | [], cur => [cur.reverse]
  | c :: rest, cur =>
    if c = sep then cur.reverse :: splitOnCharAux sep rest []
    else splitOnCharAux sep rest (c :: cur)

def splitOnChar (sep : Char) (s : Str) : List Str := splitOnCharAux sep s []

/-- `re.findall("\d+", s)`: the maximal runs of digit characters.  The
accumulator holds the current run, reversed. -/
def digitRunsAux : Str → Str → List Str
  | [], cur => if cur = [] then [] else [cur.reverse]
  | c :: rest, cur =>
    if c.isDigit then digitRunsAux rest (c :: cur)
    else if cur = [] then digitRunsAux rest []
    else cur.reverse :: digitRunsAux rest []

def digitRuns (s : Str) : List Str := digitRunsAux s []

/-- `[int(x) for x in re.findall("\d+", s)]`. -/
def lineInts (s : Str) : List Nat := (digitRuns s).map strToNat

/-- Python `s.strip("()")`. -/
def isParen (c : Char) : Bool := c = '(' || c = ')'

def stripParens (s : Str) : Str :=
  ((s.dropWhile isParen).reverse.dropWhile isParen).reverse

/-- The exact rational value of the Python float `math.pi`
(`884279719003555 * 2^-48`), used by the importer's `eval` environment
and the `u2`/`u3` decompositions. -/
def piFloat : ℚ := 884279719003555 / 281474976710656

/-- Exact rendering of a parameter (`"%s" % para`; see the section
comment). -/
def paraStr (q : ℚ) : Str :=
  (if q < 0 then ['-'] else []) ++ natToStr q.num.natAbs ++
    (if q.den = 1 then [] else '/' :: natToStr q.den)

def parseNatStr (s : Str) : Option Nat :=
  if s ≠ [] ∧ s.all Char.isDigit then some (strToNat s) else none

def parseUnsignedRat (s : Str) : Option ℚ :=
  match splitFirstChar '/' s with
  | (a, none) => (parseNatStr a).map fun n => (n : ℚ)
  | (a, some b) =>
    match parseNatStr a, parseNatStr b with
    | some n, some d => if d = 0 then none else some ((n : ℚ) / d)
    | _, _ => none

/-- `eval(parai, {"pi": pi})` on the numeric literals the codec deals in
(`none` models an exception escaping `eval`). -/
def parsePara (s : Str) : Option ℚ :=
  if s = ['p', 'i'] then some piFloat
  else if s.headD ' ' = '-' then (parseUnsignedRat s.tail).map fun q => -q
  else parseUnsignedRat s

/-! ### Export (`to_openqasm`) -/

/-- `(g.name).lower()`. -/
def lowerName (g : QGate) : Str := g.name.map Char.toLower

/-- `"q[%d]" % p`. -/
def qref (p : Nat) : Str := 'q' :: '[' :: (natToStr p ++ [']'])

/-- Whether the gate is a `ParaSingleQubitGate` (the only parametric
class the exporter meets). -/
def isParaSingle : QGate → Bool
  | QGate.RXGate _ _ | QGate.RYGate _ _ | QGate.RZGate _ _ => true
  | _ => false

/-- The parameter of a parametric single-qubit gate. -/
def paraOf : QGate → ℚ
  | QGate.RXGate _ a => a
  | QGate.RYGate _ a => a
  | QGate.RZGate _ a => a
  | _ => 0

/-- First/second operand of a two-qubit gate (`gate.pos[0]`,
`gate.pos[1]`). -/
def twoPos0 : QGate → Nat
  | QGate.CXGate a _ => a
  | QGate.CYGate a _ => a
  | QGate.CZGate a _ => a
  | QGate.SwapGate a _ => a
  | _ => 0

def twoPos1 : QGate → Nat
  | QGate.CXGate _ b => b
  | QGate.CYGate _ b => b
  | QGate.CZGate _ b => b
  | QGate.SwapGate _ b => b
  | _ => 0

/-- `",".join(["q[%d]" % p for p in pos])`. -/
def joinCommaQrefs : List Nat → Str
  | [] => []
  | [p] => qref p
  | p :: ps => qref p ++ (',' :: joinCommaQrefs ps)

/-- The statement the exporter emits for one gate (without the trailing
newline), mirroring the four `isinstance` branches:

    FixedSingleQubitGate: "%s q[%d];"  % (name.lower(), pos)
    ParaSingleQubitGate:  "%s(%s) q[%d];" % (name.lower(), paras, pos)
    FixedTwoQubitGate:    "%s q[%d],q[%d];" % (name.lower(), pos[0], pos[1])
    Barrier:              "barrier " + ",".join("q[%d]") + ";" -/
def gateQasmLine (g : QGate) : Str :=
  if g.isBarrier then
    ('b' :: 'a' :: 'r' :: 'r' :: 'i' :: 'e' :: 'r' :: [' ']) ++
      (joinCommaQrefs g.positions ++ [';'])
  else if isParaSingle g then
    lowerName g ++ ('(' :: (paraStr (paraOf g) ++ (')' :: ' ' ::
      (qref g.singlePos ++ [';']))))
  else if g.isSingle then
    lowerName g ++ (' ' :: (qref g.singlePos ++ [';']))
  else
    lowerName g ++ (' ' :: (qref (twoPos0 g) ++ (',' ::
      (qref (twoPos1 g) ++ [';']))))

/-- `"measure q[%d] -> meas[%d];" % (key, measures[key])`. -/
def measQasmLine (kv : Nat × Nat) : Str :=
  ('m' :: 'e' :: 'a' :: 's' :: 'u' :: 'r' :: 'e' :: [' ']) ++
    (qref kv.1 ++ (' ' :: '-' :: '>' :: ' ' ::
      ('m' :: 'e' :: 'a' :: 's' :: '[' :: (natToStr kv.2 ++ (']' :: [';'])))))

/-- The lines of the exported text: version pragma and include line (one
Python string literal containing a newline), register declarations sized
to `num` and `len(measures)`, one statement per gate in program order,
one measure statement per entry of `measures` in map order. -/
def qasmLines (c : QuantumCircuit) : List Str :=
  [('O' :: 'P' :: 'E' :: 'N' :: 'Q' :: 'A' :: 'S' :: 'M' :: ' ' :: '2' ::
      '.' :: '0' :: [';']),
   ('i' :: 'n' :: 'c' :: 'l' :: 'u' :: 'd' :: 'e' :: ' ' :: '"' :: 'q' ::
      'e' :: 'l' :: 'i' :: 'b' :: '1' :: '.' :: 'i' :: 'n' :: 'c' :: '"' ::
      [';']),
   ('q' :: 'r' :: 'e' :: 'g' :: ' ' :: (qref c.num ++ [';'])),
   ('c' :: 'r' :: 'e' :: 'g' :: ' ' :: 'm' :: 'e' :: 'a' :: 's' :: '[' ::
      (natToStr c.measures.length ++ (']' :: [';'])))] ++
  c.gates.map gateQasmLine ++ c.measures.map measQasmLine

/-- `to_openqasm()`: the concatenation of all statements, each followed
by a newline.  (The method also caches the text in `self.openqasm`; the
cache is write-only for the IR and not modelled.) -/
def to_openqasm (c : QuantumCircuit) : Str :=
  ((qasmLines c).map fun l => l ++ ['\n']).flatten

/-! ### Import (`from_openqasm`) -/

/-- The importer loop state: the circuit being rebuilt (`self`), plus the
loop-local `measured_qubits`, `global_valid` and the `paras` variable,
which — being a plain Python local — survives from one loop iteration to
the next and is visible to a later parenthesis-free statement. -/
structure ImportState where
  circ : QuantumCircuit
  measured_qubits : List Nat
  global_valid : Bool
  lastParas : Option (List ℚ)
  deriving DecidableEq

/-- Gate-name dispatch of the importer (the `if gatename == ...` chain).
`none` models an uncaught `IndexError`/`NameError` (missing operand or
missing parameter list); an unrecognised mnemonic prints a warning and
changes nothing. -/
def dispatchGate (gatename : Str) (inds : List Nat) (ps : Option (List ℚ))
    (s : ImportState) : Option ImportState :=
  if gatename = ['c', 'x'] then
    match inds with
    | a :: b :: _ => some {s with circ := s.circ.cnot a b}
    | _ => none
  else if gatename = ['c', 'y'] then
    match inds with
    | a :: b :: _ => some {s with circ := s.circ.cy a b}
    | _ => none
  else if gatename = ['c', 'z'] then
    match inds with
    | a :: b :: _ => some {s with circ := s.circ.cz a b}
    | _ => none
  else if gatename = ['s', 'w', 'a', 'p'] then
    match inds with
    | a :: b :: _ => some {s with circ := s.circ.swap a b}
    | _ => none
  else if gatename = ['r', 'x'] then
    match inds, ps with
    | a :: _, some (p :: _) => some {s with circ := s.circ.rx a p}
    | _, _ => none
  else if gatename = ['r', 'y'] then
    match inds, ps with
    | a :: _, some (p :: _) => some {s with circ := s.circ.ry a p}
    | _, _ => none
  else if gatename = ['r', 'z'] then
    match inds, ps with
    | a :: _, some (p :: _) => some {s with circ := s.circ.rz a p}
    | _, _ => none
  else if gatename = ['x'] then
    match inds with
    | a :: _ => some {s with circ := s.circ.x a}
    | _ => none
  else if gatename = ['y'] then
    match inds with
    | a :: _ => some {s with circ := s.circ.y a}
    | _ => none
  else if gatename = ['z'] then
    match inds with
    | a :: _ => some {s with circ := s.circ.z a}
    | _ => none
  else if gatename = ['h'] then
    match inds with
    | a :: _ => some {s with circ := s.circ.h a}
    | _ => none
  else if gatename = ['u', '1'] then
    match inds, ps with
    | a :: _, some (p :: _) => some {s with circ := s.circ.rz a p}
    | _, _ => none
  else if gatename = ['u', '2'] then
    match inds, ps with
    | a :: _, some (p0 :: p1 :: _) =>
      some {s with circ := ((s.circ.rz a p1).ry a (piFloat / 2)).rz a p0}
    | _, _ => none
  else if gatename = ['u', '3'] then
    match inds, ps with
    | a :: _, some (p0 :: p1 :: p2 :: _) =>
      some {s with circ := ((s.circ.rz a p2).ry a p0).rz a p1}
    | _, _ => none
  else some s

/-- Processing of one line of the input text by the importer loop.
`none` models an exception escaping the loop (index out of range on a
malformed statement, or `eval` failing on a parameter). -/
def processLine (s : ImportState) (line : Str) : Option ImportState :=
  if line = [] then some s
  else
    let pr := splitFirstChar ' ' line
    if pr.1 = ['q', 'r', 'e', 'g'] then
      match pr.2 with
      | none => none
      | some qbs =>
        match lineInts qbs with
        | [] => none
        | n :: _ => some {s with circ := {s.circ with num := n}}
    else if pr.1 = ['c', 'r', 'e', 'g'] then some s
    else if pr.1 = ['m', 'e', 'a', 's', 'u', 'r', 'e'] then
      match pr.2 with
      | none => none
      | some qbs =>
        match lineInts qbs with
        | mb :: cb :: _ =>
          some {s with
            circ := {s.circ with
              measures := dictInsert s.circ.measures mb cb},
            measured_qubits := s.measured_qubits ++ [mb]}
        | _ => none
    else
      match pr.2 with
      | none => none
      | some qbs =>
        let inds := lineInts qbs
        if inds.any (fun p => p ∈ s.measured_qubits) then
          some {s with global_valid := false}
        else if pr.1 = ['b', 'a', 'r', 'r', 'i', 'e', 'r'] then
          some {s with circ := s.circ.barrier inds}
        else
          let sp := splitOnChar '(' pr.1
          let gatename := sp.headD []
          if hsp : sp.length > 1 then
            match (splitOnChar ',' (stripParens (sp.getD 1 []))).mapM
                parsePara with
            | none => none
            | some pvals => dispatchGate gatename inds (some pvals)
                {s with lastParas := some pvals}
          else dispatchGate gatename inds s.lastParas s

/-- The importer loop over the lines after the two header lines. -/
def importLines (s : ImportState) : List Str → Option ImportState
  | [] => some s
  | l :: rest =>
    match processLine s l with
    | none => none
    | some s2 => importLines s2 rest

/-- `from_openqasm(openqasm)`: reset gates and measures, walk the lines
after the two header lines, then default the measurement map to the
identity when no measure statement was seen.  The Bool is the final
`global_valid` (`false` means the post-measurement warning fires);
`none` models an exception escaping the method. -/
def from_openqasm (c : QuantumCircuit) (text : Str) :
    Option (QuantumCircuit × Bool) :=
  let s0 : ImportState :=
    { circ := {c with openqasm := text, gates := [], measures := []}
      measured_qubits := []
      global_valid := true
      lastParas := none }
  match importLines s0 ((splitlines text).drop 2) with
  | none => none
  | some s =>
    let meas := if s.circ.measures = [] then
        (List.range s.circ.num).map fun i => (i, i)
      else s.circ.measures
    some ({s.circ with measures := meas}, s.global_valid)

/-- The head form of the text after a digit run: empty, or starting with
a non-digit. -/
def nonDigitHead (s : Str) : Prop :=
  s = [] ∨ ∃ c s2, s = c :: s2 ∧ c.isDigit = false

/-- Parametric rotation gates carry a nonzero angle.  This is an
invariant of every reachable circuit: the only ways a rotation gate is
ever created are the `rx`/`ry`/`rz` builders (used both by callers and by
the importer), and they drop zero angles. -/
def paraNonzero : QGate → Prop
  | QGate.RXGate _ a => a ≠ 0
  | QGate.RYGate _ a => a ≠ 0
  | QGate.RZGate _ a => a ≠ 0
  | _ => True

instance (g : QGate) : Decidable (paraNonzero g) :=
  match g with
  | QGate.HGate _ => inferInstanceAs (Decidable True)
  | QGate.XGate _ => inferInstanceAs (Decidable True)
  | QGate.YGate _ => inferInstanceAs (Decidable True)
  | QGate.ZGate _ => inferInstanceAs (Decidable True)
  | QGate.RXGate _ a => inferInstanceAs (Decidable (a ≠ 0))
  | QGate.RYGate _ a => inferInstanceAs (Decidable (a ≠ 0))
  | QGate.RZGate _ a => inferInstanceAs (Decidable (a ≠ 0))
  | QGate.CXGate _ _ => inferInstanceAs (Decidable True)
  | QGate.CYGate _ _ => inferInstanceAs (Decidable True)
  | QGate.CZGate _ _ => inferInstanceAs (Decidable True)
  | QGate.SwapGate _ _ => inferInstanceAs (Decidable True)
  | QGate.Barrier _ => inferInstanceAs (Decidable True)

/-- The value of the loop-local `paras` variable after one gate
statement has been processed. -/
def lastParasAfter (g : QGate) (prev : Option (List ℚ)) : Option (List ℚ) :=
  if isParaSingle g then some [paraOf g] else prev

/-- The final measurement-map defaulting of `from_openqasm`: when no
measure statement was seen, `measures` becomes the identity map on
`range(num)`. -/
def measuresDefaulted (c : QuantumCircuit) : QuantumCircuit :=
  { c with measures :=
      if c.measures = [] then (List.range c.num).map (fun i => (i, i))
      else c.measures }

/-- A concrete five-line OpenQASM text whose gate statement `h q[0];`
names qubit 0 after `measure q[0] -> meas[0];`. -/
def c4Text : Str :=
  "OPENQASM 2.0;\ninclude \"qelib1.inc\";\nqreg q[2];\nmeasure q[0] -> meas[0];\nh q[0];\n".toList

/-- The importer state after the `qreg` line of `c4Text`. -/
def c4s1 : ImportState := ⟨⟨2, 1000, false, [], [], c4Text⟩, [], true, none⟩

/-- The importer state after the `measure` line of `c4Text`. -/
def c4s2 : ImportState :=
  ⟨⟨2, 1000, false, [], [(0, 0)], c4Text⟩, [0], true, none⟩

/-! ### Row-major binary digit arithmetic -/

theorem valOf_succ (k : Nat) (b : Nat → Nat) :
    valOf (k + 1) b = b 0 * 2 ^ k + valOf k (fun l => b (l + 1)) := by
  unfold valOf
  rw [Finset.sum_range_succ']
  have h0 : k + 1 - 1 - 0 = k := by omega
  have hs : ∀ l, k + 1 - 1 - (l + 1) = k - 1 - l := by omega
  simp only [h0]
  rw [add_comm]
  congr 1
  exact Finset.sum_congr rfl fun l _ => by rw [hs l]

theorem valOf_congr (k : Nat) (f g : Nat → Nat) (h : ∀ m, m < k → f m = g m) :
    valOf k f = valOf k g :=
  Finset.sum_congr rfl fun m hm => by rw [h m (Finset.mem_range.mp hm)]

theorem valOf_lt (k : Nat) (b : Nat → Nat) (hb : ∀ l, l < k → b l < 2) :
    valOf k b < 2 ^ k := by
  induction k generalizing b with
  | zero => simp [valOf]
  | succ k ih =>
    rw [valOf_succ]
    have h0 : b 0 ≤ 1 := by have := hb 0 (by omega); omega
    have h1 : b 0 * 2 ^ k ≤ 2 ^ k := by
      calc b 0 * 2 ^ k ≤ 1 * 2 ^ k := Nat.mul_le_mul_right _ h0
        _ = 2 ^ k := one_mul _
    have hr : valOf k (fun l => b (l + 1)) < 2 ^ k :=
      ih _ fun l hl => hb (l + 1) (by omega)
    have hp : 2 ^ (k + 1) = 2 ^ k * 2 := pow_succ 2 k
    omega

theorem bitsOf_lt (k x l : Nat) : bitsOf k x l < 2 :=
  Nat.mod_lt _ (by norm_num)

/-- Reading binary digit `j` (of `m` digits, from the low end) commutes with
stripping the part of the number above `2^m`. -/
theorem div_pow_mod_two_split (a r j m : Nat) (hj : j < m) (hr : r < 2 ^ m) :
    (a * 2 ^ m + r) / 2 ^ j % 2 = r / 2 ^ j % 2 := by
  have h1 : a * 2 ^ m + r = r + a * 2 ^ (m - j) * 2 ^ j := by
    rw [mul_assoc, ← pow_add]
    have : m - j + j = m := by omega
    rw [this]; omega
  rw [h1, Nat.add_mul_div_right _ _ (Nat.pos_pow_of_pos j (by norm_num))]
  have h2 : a * 2 ^ (m - j) = a * 2 ^ (m - j - 1) * 2 := by
    rw [mul_assoc, ← pow_succ]
    congr 2
    omega
  rw [h2, Nat.add_mul_mod_self_right]

theorem div_mul_add_mod (x n : Nat) : x / n * n + x % n = x := by
  rw [mul_comm]
  exact Nat.div_add_mod x n

theorem valOf_bitsOf (k : Nat) : ∀ x, x < 2 ^ k → valOf k (bitsOf k x) = x := by
  induction k with
  | zero =>
    intro x hx
    have : x = 0 := by simpa using hx
    simp [valOf, this]
  | succ k ih =>
    intro x hx
    have hpos : 0 < 2 ^ k := Nat.pos_pow_of_pos k (by norm_num)
    rw [valOf_succ]
    have h0 : bitsOf (k + 1) x 0 = x / 2 ^ k := by
      unfold bitsOf
      have hk : k + 1 - 1 - 0 = k := by omega
      rw [hk]
      apply Nat.mod_eq_of_lt
      have h2 : x < 2 * 2 ^ k := by
        have hp : 2 ^ (k + 1) = 2 ^ k * 2 := pow_succ 2 k
        omega
      exact (Nat.div_lt_iff_lt_mul hpos).mpr (by omega)
    have hsucc : ∀ l, l < k → bitsOf (k + 1) x (l + 1) = bitsOf k (x % 2 ^ k) l := by
      intro l hl
      unfold bitsOf
      have hk : k + 1 - 1 - (l + 1) = k - 1 - l := by omega
      rw [hk]
      conv_lhs => rw [← div_mul_add_mod x (2 ^ k)]
      exact div_pow_mod_two_split _ _ _ _ (by omega) (Nat.mod_lt _ hpos)
    have hcongr : valOf k (fun l => bitsOf (k + 1) x (l + 1)) =
        valOf k (bitsOf k (x % 2 ^ k)) := by
      unfold valOf
      exact Finset.sum_congr rfl fun l hl => by
        simp only [hsucc l (Finset.mem_range.mp hl)]
    rw [h0, hcongr, ih _ (Nat.mod_lt _ hpos)]
    rw [mul_comm]
    exact Nat.div_add_mod x (2 ^ k)

theorem bitsOf_valOf (k : Nat) (b : Nat → Nat) (hb : ∀ l, l < k → b l < 2) :
    ∀ m, m < k → bitsOf k (valOf k b) m = b m := by
  induction k generalizing b with
  | zero => omega
  | succ k ih =>
    intro m hm
    have hpos : 0 < 2 ^ k := Nat.pos_pow_of_pos k (by norm_num)
    have hrest : valOf k (fun l => b (l + 1)) < 2 ^ k :=
      valOf_lt k _ fun l hl => hb (l + 1) (by omega)
    rw [valOf_succ]
    match m with
    | 0 =>
      unfold bitsOf
      have hk : k + 1 - 1 - 0 = k := by omega
      rw [hk, add_comm, Nat.add_mul_div_right _ _ hpos,
        Nat.div_eq_of_lt hrest]
      have hb0 : b 0 < 2 := hb 0 (by omega)
      omega
    | m + 1 =>
      unfold bitsOf
      have hk : k + 1 - 1 - (m + 1) = k - 1 - m := by omega
      rw [hk, div_pow_mod_two_split _ _ _ _ (by omega) hrest]
      exact ih (fun l => b (l + 1)) (fun l hl => hb (l + 1) (by omega)) m (by omega)

theorem invList_length (p : List Nat) : (invList p).length = p.length := by
  simp [invList]

theorem map_getD_range (p : List Nat) :
    (List.range p.length).map (fun i => p.getD i 0) = p := by
  apply List.ext_getElem (by simp)
  intro i h1 h2
  simp only [List.getElem_map, List.getElem_range]
  exact List.getD_eq_getElem p 0 h2

theorem argsort_perm (pos : List Nat) : (argsort pos).Perm (List.range pos.length) :=
  List.perm_insertionSort _ _

theorem argsort_length (pos : List Nat) : (argsort pos).length = pos.length := by
  rw [(argsort_perm pos).length_eq, List.length_range]

/-- On a duplicate-free list of values `0..k-1`, `argsort` computes the
inverse permutation. -/
theorem argsort_eq_invList (p : List Nat) (hnd : p.Nodup)
    (hb : ∀ x ∈ p, x < p.length) : argsort p = invList p := by
  haveI : IsTotal Nat (fun a b => p.getD a 0 ≤ p.getD b 0) :=
    ⟨fun a b => le_total _ _⟩
  haveI : IsTrans Nat (fun a b => p.getD a 0 ≤ p.getD b 0) :=
    ⟨fun a b c hab hbc => le_trans hab hbc⟩
  have hperm : (argsort p).Perm (List.range p.length) := argsort_perm p
  have hlen : (argsort p).length = p.length := argsort_length p
  have hsorted : (argsort p).Sorted (fun a b => p.getD a 0 ≤ p.getD b 0) :=
    List.sorted_insertionSort _ _
  have hmapsorted : ((argsort p).map (fun i => p.getD i 0)).Sorted (· ≤ ·) :=
    List.Pairwise.map _ (fun a b h => h) hsorted
  have hp_perm_range : p.Perm (List.range p.length) := by
    apply List.perm_of_nodup_nodup_toFinset_eq hnd (List.nodup_range p.length)
    have hsub : p.toFinset ⊆ Finset.range p.length := by
      intro x hx
      rw [Finset.mem_range]
      exact hb x (List.mem_toFinset.mp hx)
    have hcard : (Finset.range p.length).card ≤ p.toFinset.card := by
      rw [Finset.card_range, List.toFinset_card_of_nodup hnd]
    have hrange : (List.range p.length).toFinset = Finset.range p.length := by
      ext x
      simp
    rw [hrange]
    exact Finset.eq_of_subset_of_card_le hsub hcard
  have hmapperm : ((argsort p).map (fun i => p.getD i 0)).Perm
      (List.range p.length) := by
    have h1 := hperm.map (fun i => p.getD i 0)
    rw [map_getD_range p] at h1
    exact h1.trans hp_perm_range
  have hmapeq : (argsort p).map (fun i => p.getD i 0) = List.range p.length :=
    List.eq_of_perm_of_sorted hmapperm hmapsorted
      ((List.sorted_lt_range p.length).le_of_lt)
  apply List.ext_getElem (by rw [hlen, invList_length])
  intro i h1 h2
  have hik : i < p.length := by rwa [hlen] at h1
  have hvlt : (argsort p)[i] < p.length := by
    have : (argsort p)[i] ∈ List.range p.length :=
      hperm.subset (List.getElem_mem h1)
    simpa using this
  have hml : i < ((argsort p).map (fun i => p.getD i 0)).length := by
    simpa [hlen] using hik
  have hkeyi : p.getD ((argsort p)[i]) 0 = i := by
    have hg : ((argsort p).map (fun i => p.getD i 0))[i] =
        p.getD ((argsort p)[i]) 0 := List.getElem_map _
    have hg2 : ((argsort p).map (fun i => p.getD i 0))[i] = i := by
      simp only [hmapeq]
      simp
    rw [hg] at hg2
    exact hg2
  have hpi : p[(argsort p)[i]] = i := by
    rw [List.getD_eq_getElem p 0 hvlt] at hkeyi
    exact hkeyi
  have hidx : p.indexOf i = (argsort p)[i] := by
    have h := List.indexOf_getElem hnd ((argsort p)[i]) hvlt
    rw [hpi] at h
    exact h
  have hinv : (invList p)[i] = p.indexOf i := by
    simp [invList]
  rw [hinv, hidx]

theorem perm_range_self (p : List Nat) (hnd : p.Nodup)
    (hb : ∀ x ∈ p, x < p.length) : p.Perm (List.range p.length) := by
  apply List.perm_of_nodup_nodup_toFinset_eq hnd (List.nodup_range p.length)
  have hsub : p.toFinset ⊆ Finset.range p.length := by
    intro x hx
    rw [Finset.mem_range]
    exact hb x (List.mem_toFinset.mp hx)
  have hcard : (Finset.range p.length).card ≤ p.toFinset.card := by
    rw [Finset.card_range, List.toFinset_card_of_nodup hnd]
  have hrange : (List.range p.length).toFinset = Finset.range p.length := by
    ext x
    simp
  rw [hrange]
  exact Finset.eq_of_subset_of_card_le hsub hcard

theorem invList_getElem (p : List Nat) (m : Nat) (hm : m < p.length)
    (hm2 : m < (invList p).length) : (invList p)[m] = p.indexOf m := by
  simp [invList]

theorem invList_nodup (p : List Nat) (hnd : p.Nodup)
    (hb : ∀ x ∈ p, x < p.length) : (invList p).Nodup := by
  rw [← argsort_eq_invList p hnd hb]
  exact (argsort_perm p).nodup_iff.mpr (List.nodup_range p.length)

theorem indexOf_getD_self (p : List Nat) (hnd : p.Nodup) (m : Nat)
    (hm : m < p.length) : p.indexOf (p.getD m 0) = m := by
  rw [List.getD_eq_getElem p 0 hm]
  exact List.indexOf_getElem hnd m hm

theorem invList_bound (p : List Nat) (hnd : p.Nodup)
    (hb : ∀ x ∈ p, x < p.length) :
    ∀ x ∈ invList p, x < (invList p).length := by
  intro x hx
  rw [invList_length]
  simp only [invList, List.mem_map, List.mem_range] at hx
  obtain ⟨m, hm, rfl⟩ := hx
  have hmem : m ∈ p := by
    have := (perm_range_self p hnd hb).mem_iff.mpr (List.mem_range.mpr hm)
    exact this
  exact List.indexOf_lt_length.mpr hmem

theorem invList_indexOf (p : List Nat) (hnd : p.Nodup)
    (hb : ∀ x ∈ p, x < p.length) (m : Nat) (hm : m < p.length) :
    (invList p).indexOf m = p.getD m 0 := by
  have hval : p.getD m 0 < p.length := by
    rw [List.getD_eq_getElem p 0 hm]
    exact hb _ (List.getElem_mem hm)
  have hval2 : p.getD m 0 < (invList p).length := by
    rw [invList_length]
    exact hval
  have hgd : (invList p)[p.getD m 0] = m := by
    rw [invList_getElem p _ hval hval2]
    exact indexOf_getD_self p hnd m hm
  have h := List.indexOf_getElem (invList_nodup p hnd hb) (p.getD m 0)
    (by rw [invList_length]; exact hval)
  rw [hgd] at h
  exact h

theorem invList_invList (p : List Nat) (hnd : p.Nodup)
    (hb : ∀ x ∈ p, x < p.length) : invList (invList p) = p := by
  apply List.ext_getElem (by rw [invList_length, invList_length])
  intro m h1 h2
  have hm : m < p.length := h2
  have h3 : m < (invList p).length := by rw [invList_length]; exact hm
  rw [invList_getElem (invList p) m h3 (by rw [invList_length]; exact h3),
    invList_indexOf p hnd hb m hm, List.getD_eq_getElem p 0 hm]

theorem argsort_invList (p : List Nat) (hnd : p.Nodup)
    (hb : ∀ x ∈ p, x < p.length) : argsort (invList p) = p := by
  rw [argsort_eq_invList (invList p) (invList_nodup p hnd hb)
    (invList_bound p hnd hb)]
  exact invList_invList p hnd hb

theorem reorder_matrix_apply (M : QMatrix α) (pos : List Nat) (x y : Nat) :
    reorder_matrix M pos x y = M (reorderIdx pos x) (reorderIdx pos y) := rfl

theorem reorderIdx_lt (pos : List Nat) (x : Nat) :
    reorderIdx pos x < 2 ^ pos.length :=
  valOf_lt _ _ fun l _ => bitsOf_lt _ _ _

/-- Composing the index maps of `reorder_matrix` by `invList p` and then by
`p` is the identity on `[0, 2^k)`. -/
theorem reorderIdx_comp_inv (p : List Nat) (hnd : p.Nodup)
    (hb : ∀ x ∈ p, x < p.length) (x : Nat) (hx : x < 2 ^ p.length) :
    reorderIdx p (reorderIdx (invList p) x) = x := by
  have hinner : reorderIdx (invList p) x =
      valOf p.length (fun m => bitsOf p.length x (p.indexOf m)) := by
    unfold reorderIdx
    rw [invList_length, argsort_invList p hnd hb]
  rw [hinner]
  unfold reorderIdx
  have houter : ∀ m, m < p.length →
      bitsOf p.length (valOf p.length fun m => bitsOf p.length x (p.indexOf m))
        ((argsort p).indexOf m) = bitsOf p.length x m := by
    intro m hm
    rw [argsort_eq_invList p hnd hb, invList_indexOf p hnd hb m hm]
    have hval : p.getD m 0 < p.length := by
      rw [List.getD_eq_getElem p 0 hm]
      exact hb _ (List.getElem_mem hm)
    rw [bitsOf_valOf _ _ (fun l _ => bitsOf_lt _ _ _) _ hval,
      indexOf_getD_self p hnd m hm]
  have hsum : valOf p.length
      (fun m => bitsOf p.length
        (valOf p.length fun m => bitsOf p.length x (p.indexOf m))
        ((argsort p).indexOf m)) = valOf p.length (bitsOf p.length x) :=
    valOf_congr _ _ _ houter
  rw [hsum, valOf_bitsOf _ _ hx]

theorem invList_range (k : Nat) : invList (List.range k) = List.range k := by
  apply List.ext_getElem (by simp [invList_length])
  intro m h1 h2
  have hm : m < k := by simpa using h2
  have h3 : m < (List.range k).length := by simpa using hm
  rw [invList_getElem (List.range k) m h3
    (by rw [invList_length]; exact h3)]
  have h := List.indexOf_getElem (List.nodup_range k) m h3
  rw [List.getElem_range] at h ⊢
  exact h

/-- Reordering by the identity permutation is the identity on flat indices
below `2^k`. -/
theorem reorderIdx_range (k : Nat) (x : Nat) (hx : x < 2 ^ k) :
    reorderIdx (List.range k) x = x := by
  unfold reorderIdx
  have hargs : argsort (List.range k) = List.range k := by
    rw [argsort_eq_invList (List.range k) (List.nodup_range k)
      (by intro y hy; simpa using List.mem_range.mp hy)]
    exact invList_range k
  have hsum : valOf (List.range k).length
      (fun m => bitsOf (List.range k).length x
        ((argsort (List.range k)).indexOf m)) =
      valOf k (bitsOf k x) := by
    rw [hargs]
    simp only [List.length_range]
    apply valOf_congr
    intro m hm
    have hidx : (List.range k).indexOf m = m := by
      have h := List.indexOf_getElem (List.nodup_range k) m (by simpa using hm)
      rw [List.getElem_range] at h
      exact h
    rw [hidx]
  rw [hsum, valOf_bitsOf _ _ hx]

/-! ### Claim C7 -/

/-- C7: for every square matrix `M` of side `2^k` and every permutation `p`
of `0..k-1` (length `k`, duplicate-free, values below `k`), reordering `M`
by `p` with `reorder_matrix` and then reordering the result by the inverse
permutation `invList p` returns `M` entry for entry on all indices below
`2^k`; and reordering by the identity permutation `range k` is the
identity on `M` there.  Entries outside `[0, 2^k)` do not exist on the
numpy side, so entrywise agreement below `2^k` is equality of the
matrices. -/
theorem claim_C7_reorder_involution (α : Type) (k : Nat) (M : QMatrix α)
    (p : List Nat) (hlen : p.length = k) (hnd : p.Nodup)
    (hb : ∀ x ∈ p, x < k) :
    (∀ i j, i < 2 ^ k → j < 2 ^ k →
      reorder_matrix (reorder_matrix M p) (invList p) i j = M i j) ∧
    (∀ i j, i < 2 ^ k → j < 2 ^ k →
      reorder_matrix M (List.range k) i j = M i j) := by
  subst hlen
  constructor
  · intro i j hi hj
    rw [reorder_matrix_apply, reorder_matrix_apply,
      reorderIdx_comp_inv p hnd hb i hi, reorderIdx_comp_inv p hnd hb j hj]
  · intro i j hi hj
    rw [reorder_matrix_apply, reorderIdx_range _ _ (by simpa using hi),
      reorderIdx_range _ _ (by simpa using hj)]

/-- Concrete instantiation of C7: the permutation `[1, 0]` on a 4×4 matrix
with pairwise-distinct entries, checked at explicit indices. -/
theorem claim_C7_reorder_involution_witness :
    ([1, 0] : List Nat).Nodup ∧ (∀ x ∈ ([1, 0] : List Nat), x < 2) ∧
    reorder_matrix (reorder_matrix (fun a b => 10 * a + b) [1, 0])
      (invList [1, 0]) 2 3 = (fun a b => 10 * a + b : QMatrix Nat) 2 3 ∧
    reorder_matrix (fun a b => 10 * a + b : QMatrix Nat) (List.range 2) 1 2 =
      (fun a b => 10 * a + b : QMatrix Nat) 1 2 :=
  ⟨by decide, by decide,
    (claim_C7_reorder_involution Nat 2 _ [1, 0] rfl (by decide) (by decide)).1
      2 3 (by decide) (by decide),
    (claim_C7_reorder_involution Nat 2 _ [1, 0] rfl (by decide) (by decide)).2
      1 2 (by decide) (by decide)⟩

/-! ### Claim C1 -/

/-- C1 (code bug): the claim says the full matrix of a controlled gate with
`c` controls and `t` targets is square of side `2^(c+t)`, identity outside
the control-active block.  The code instead sizes the identity as
`dim = targ_dim + ctrl_dim = 2^t + 2^c` (quantum_gate.py line 148), which
equals `2^(c+t)` only for `c = t = 1`.  For `ctrls = [0,1]`, `targs = [2]`
the identity is 6×6 while the block assignment targets rows/columns from
`control_dim = 2^3 - 2 = 6` on — an empty slice that cannot receive the
2×2 target matrix — and the reshape inside `reorder_matrix` would need
side `2^3 = 8`; numpy raises, the embedding returns `none`, and no matrix
of side `2^(2+1)` (or any matrix at all) is produced. -/
theorem claim_C1_controlled_dim_code_bug :
    controlled_matrix (α := Nat) [0, 1] [2] eye = none ∧
    2 ^ ([0, 1] : List Nat).length + 2 ^ ([2] : List Nat).length ≠
      2 ^ (([0, 1] : List Nat).length + ([2] : List Nat).length) := by
  constructor
  · rfl
  · decide

/-! ### Dictionary key bookkeeping -/

theorem dictInsert_keys (m : List (Nat × Nat)) (k v : Nat) :
    (dictInsert m k v).map Prod.fst =
      if m.any (fun kv => kv.1 = k) then m.map Prod.fst
      else m.map Prod.fst ++ [k] := by
  unfold dictInsert
  split
  · rw [List.map_map]
    apply List.map_congr_left
    intro kv _
    by_cases hk : kv.1 = k
    · simp [hk]
    · simp [hk]
  · simp

theorem dictInsert_keys_nodup (m : List (Nat × Nat)) (k v : Nat)
    (h : (m.map Prod.fst).Nodup) : ((dictInsert m k v).map Prod.fst).Nodup := by
  rw [dictInsert_keys]
  split
  · exact h
  · rename_i hany
    rw [List.nodup_append]
    refine ⟨h, List.nodup_singleton k, ?_⟩
    intro a ha hb
    have : a = k := by simpa using hb
    subst this
    rw [List.any_eq_true] at hany
    apply hany
    obtain ⟨kv, hkv, hfst⟩ := List.mem_map.mp ha
    exact ⟨kv, hkv, by simp [hfst]⟩

theorem dictInsert_keys_toFinset (m : List (Nat × Nat)) (k v : Nat) :
    ((dictInsert m k v).map Prod.fst).toFinset =
      (m.map Prod.fst).toFinset ∪ {k} := by
  rw [dictInsert_keys]
  split
  · rename_i hany
    rw [List.any_eq_true] at hany
    obtain ⟨kv, hkv, hfst⟩ := hany
    have hk : k ∈ (m.map Prod.fst).toFinset := by
      rw [List.mem_toFinset]
      exact List.mem_map.mpr ⟨kv, hkv, by simpa using hfst⟩
    ext a
    simp only [Finset.mem_union, Finset.mem_singleton]
    constructor
    · exact fun ha => Or.inl ha
    · rintro (ha | rfl)
      · exact ha
      · exact hk
  · ext a
    simp [or_comm]

theorem pydict_fold_keys_nodup (pairs : List (Nat × Nat)) :
    ∀ m : List (Nat × Nat), (m.map Prod.fst).Nodup →
    ((pairs.foldl (fun m kv => dictInsert m kv.1 kv.2) m).map Prod.fst).Nodup := by
  induction pairs with
  | nil => intro m hm; exact hm
  | cons kv rest ih =>
    intro m hm
    exact ih _ (dictInsert_keys_nodup m kv.1 kv.2 hm)

theorem pydict_keys_nodup (pairs : List (Nat × Nat)) :
    ((pydict pairs).map Prod.fst).Nodup :=
  pydict_fold_keys_nodup pairs [] (by simp)

theorem pydict_fold_keys_toFinset (pairs : List (Nat × Nat)) :
    ∀ m : List (Nat × Nat),
    ((pairs.foldl (fun m kv => dictInsert m kv.1 kv.2) m).map Prod.fst).toFinset =
      (m.map Prod.fst).toFinset ∪ (pairs.map Prod.fst).toFinset := by
  induction pairs with
  | nil => intro m; simp
  | cons kv rest ih =>
    intro m
    rw [List.foldl_cons, ih, dictInsert_keys_toFinset, List.map_cons,
      List.toFinset_cons]
    ext a
    simp only [Finset.mem_union, Finset.mem_singleton, Finset.mem_insert]
    tauto

theorem pydict_keys_toFinset (pairs : List (Nat × Nat)) :
    ((pydict pairs).map Prod.fst).toFinset = (pairs.map Prod.fst).toFinset := by
  have h := pydict_fold_keys_toFinset pairs []
  simpa [pydict] using h

/-- The size of `dict(zip(ks, vs))` with equally long lists is the number
of distinct elements of `ks`. -/
theorem pydict_zip_length (ks vs : List Nat) (h : ks.length = vs.length) :
    (pydict (ks.zip vs)).length = ks.toFinset.card := by
  have hnd := pydict_keys_nodup (ks.zip vs)
  have hfst : (ks.zip vs).map Prod.fst = ks := List.map_fst_zip ks vs (by omega)
  have hts := pydict_keys_toFinset (ks.zip vs)
  rw [hfst] at hts
  calc (pydict (ks.zip vs)).length = ((pydict (ks.zip vs)).map Prod.fst).length := by simp
    _ = ((pydict (ks.zip vs)).map Prod.fst).toFinset.card :=
        (List.toFinset_card_of_nodup hnd).symm
    _ = ks.toFinset.card := by rw [hts]

/-! ### Claims C6, C9, C10 -/

/-- C6 counterexample: the claim says any builder call with an
out-of-range or duplicated qubit position fails immediately and never adds
the gate.  The source builders are bare appends with no validation
(`h` is `self.gates.append(HGate(pos)); return self`), so on a 2-qubit
circuit `h(5)` appends an `HGate(5)` and `cnot(1, 1)` appends a
`CXGate([1, 1])`; nothing fails and both gates are added, refuting the
claim at these inputs. -/
theorem claim_C6_no_position_validation_counterexample :
    ((QuantumCircuit.init 2).h 5).gates = [QGate.HGate 5] ∧
    ((QuantumCircuit.init 2).cnot 1 1).gates = [QGate.CXGate 1 1] := by
  constructor <;> rfl

/-- C6 amended: builder append calls perform no validation of qubit
positions at all — for every circuit state, an out-of-range or duplicated
position is accepted and the gate is appended to the gate list exactly as
any other (errors can only surface later, e.g. when the scheduler indexes
its per-qubit rows). -/
theorem claim_C6_builders_append_unchecked (c : QuantumCircuit)
    (p a b : Nat) (ps : List Nat) :
    (c.h p).gates = c.gates ++ [QGate.HGate p] ∧
    (c.cnot a b).gates = c.gates ++ [QGate.CXGate a b] ∧
    (c.swap a b).gates = c.gates ++ [QGate.SwapGate a b] ∧
    (c.barrier ps).gates = c.gates ++ [QGate.Barrier ps] :=
  ⟨rfl, rfl, rfl, rfl⟩

/-- C9: the rotation builders drop a zero-angle gate: `rx(p, 0.0)` (and
`ry`, `rz`) return the circuit unchanged — no gate is appended and the
returned object is the circuit itself — while any nonzero angle appends
exactly one rotation gate. -/
theorem claim_C9_zero_rotation_dropped (c : QuantumCircuit) (p : Nat)
    (para : ℚ) :
    c.rx p 0 = c ∧ c.ry p 0 = c ∧ c.rz p 0 = c ∧
    (para ≠ 0 → (c.rx p para).gates = c.gates ++ [QGate.RXGate p para]) ∧
    (para ≠ 0 → (c.ry p para).gates = c.gates ++ [QGate.RYGate p para]) ∧
    (para ≠ 0 → (c.rz p para).gates = c.gates ++ [QGate.RZGate p para]) := by
  refine ⟨by simp [QuantumCircuit.rx], by simp [QuantumCircuit.ry],
    by simp [QuantumCircuit.rz], ?_, ?_, ?_⟩
  · intro hp; simp [QuantumCircuit.rx, hp]
  · intro hp; simp [QuantumCircuit.ry, hp]
  · intro hp; simp [QuantumCircuit.rz, hp]

/-- Concrete instantiation of C9 with angle 1 on qubit 0. -/
theorem claim_C9_zero_rotation_dropped_witness :
    (QuantumCircuit.init 1).rx 0 0 = QuantumCircuit.init 1 ∧
    ((1 : ℚ) ≠ 0) ∧
    ((QuantumCircuit.init 1).rx 0 1).gates = [QGate.RXGate 0 1] :=
  ⟨(claim_C9_zero_rotation_dropped (QuantumCircuit.init 1) 0 1).1,
    by decide,
    (claim_C9_zero_rotation_dropped (QuantumCircuit.init 1) 0 1).2.2.2.1
      (by decide)⟩

/-- C10: calling `measure` with a non-empty `cbits` list whose length
differs from the number of distinct qubits in `pos` raises `CircuitError`
(the Bool component is `true`), but the error escapes only after
`self.measures` has been overwritten with the default map
`dict(zip(pos, range(len(pos))))` and `self.shots`, `self.tomo` with the
new arguments: the circuit state is not rolled back. -/
theorem claim_C10_measure_error_after_mutation (c : QuantumCircuit)
    (pos cbits : List Nat) (shots : Nat) (tomo : Bool) (hcb : cbits ≠ [])
    (hlen : cbits.length ≠ pos.toFinset.card) :
    QuantumCircuit.measure c pos shots cbits tomo =
      ({ c with measures := pydict (pos.zip (List.range pos.length)),
                shots := shots, tomo := tomo }, true) := by
  have hL : (pydict (pos.zip (List.range pos.length))).length =
      pos.toFinset.card := pydict_zip_length pos _ (by simp)
  unfold QuantumCircuit.measure
  rw [if_pos hcb, if_neg]
  rw [hL]
  exact hlen

/-- Concrete instantiation of C10: `measure([0, 1], 500, [3], True)` on a
fresh 2-qubit circuit raises while leaving the new measures/shots/tomo in
place. -/
theorem claim_C10_measure_error_after_mutation_witness :
    ([3] : List Nat) ≠ [] ∧
    ([3] : List Nat).length ≠ ([0, 1] : List Nat).toFinset.card ∧
    QuantumCircuit.measure (QuantumCircuit.init 2) [0, 1] 500 [3] true =
      ({ QuantumCircuit.init 2 with
          measures := pydict (([0, 1] : List Nat).zip
            (List.range ([0, 1] : List Nat).length)),
          shots := 500, tomo := true }, true) :=
  ⟨by decide, by decide,
    claim_C10_measure_error_after_mutation (QuantumCircuit.init 2) [0, 1] [3]
      500 true (by decide) (by decide)⟩

/-! ### Shape of the layout (claim C8) -/

theorem foldl_max_init_le (l : List Nat) (a : Nat) : a ≤ l.foldl max a := by
  induction l generalizing a with
  | nil => exact le_refl a
  | cons x xs ih => exact le_trans (le_max_left a x) (ih (max a x))

theorem le_foldl_max_of_mem (l : List Nat) (a x : Nat) (hx : x ∈ l) :
    x ≤ l.foldl max a := by
  induction l generalizing a with
  | nil => cases hx
  | cons y ys ih =>
    rcases List.mem_cons.mp hx with rfl | hmem
    · exact le_trans (le_max_right a x) (foldl_max_init_le ys (max a x))
    · exact ih (max a y) hmem

theorem wire_le_maxdepth (c : QuantumCircuit) (q : Nat) (hq : q < c.num) :
    ((wireRows c).getD q []).length ≤ maxdepthOf c := by
  apply le_foldl_max_of_mem _ 0
  exact List.mem_map.mpr ⟨q, List.mem_range.mpr hq, rfl⟩

theorem paddedWire_length (c : QuantumCircuit) (q : Nat) (hq : q < c.num) :
    (paddedWire c q).length = maxdepthOf c := by
  unfold paddedWire
  have h := wire_le_maxdepth c q hq
  simp only [List.length_append, List.length_replicate]
  omega

theorem addUsed_nodup (used : List Nat) (p : Nat) (h : used.Nodup) :
    (addUsed used p).Nodup := by
  unfold addUsed
  split
  · exact h
  · rename_i hnot
    simp [List.nodup_append, h, hnot]

theorem mem_addUsed (used : List Nat) (p u : Nat) :
    u ∈ addUsed used p ↔ u ∈ used ∨ u = p := by
  unfold addUsed
  split
  · rename_i hmem
    constructor
    · exact Or.inl
    · rintro (h | rfl)
      · exact h
      · exact hmem
  · simp

theorem foldl_addUsed_nodup (l : List Nat) (used : List Nat)
    (h : used.Nodup) : (l.foldl addUsed used).Nodup := by
  induction l generalizing used with
  | nil => exact h
  | cons x xs ih => exact ih _ (addUsed_nodup used x h)

theorem mem_foldl_addUsed (l : List Nat) (used : List Nat) (u : Nat) :
    u ∈ l.foldl addUsed used ↔ u ∈ used ∨ u ∈ l := by
  induction l generalizing used with
  | nil => simp
  | cons x xs ih =>
    rw [List.foldl_cons, ih, mem_addUsed]
    simp only [List.mem_cons]
    tauto

theorem not_single_and_two (g : QGate) :
    ¬(g.isSingle = true ∧ g.isTwo = true) := by
  cases g <;> simp [QGate.isSingle, QGate.isTwo]

theorem collectUsed_nodup (gates : List QGate) (used : List Nat)
    (h : used.Nodup) : (collectUsed gates used).Nodup := by
  induction gates generalizing used with
  | nil => exact h
  | cons g rest ih =>
    unfold collectUsed
    split
    · exact ih _ (addUsed_nodup used _ h)
    · split
      · exact ih _ (foldl_addUsed_nodup _ _ h)
      · exact ih _ h

theorem mem_collectUsed (gates : List QGate) (used : List Nat) (u : Nat) :
    u ∈ collectUsed gates used ↔ u ∈ used ∨
      ∃ g ∈ gates, (g.isSingle = true ∧ u = g.singlePos) ∨
        (g.isTwo = true ∧ u ∈ g.positions) := by
  induction gates generalizing used with
  | nil => simp [collectUsed]
  | cons g rest ih =>
    unfold collectUsed
    split
    · rename_i hs
      rw [ih, mem_addUsed]
      constructor
      · rintro ((h | rfl) | ⟨g', hg', hcase⟩)
        · exact Or.inl h
        · exact Or.inr ⟨g, by simp, Or.inl ⟨hs, rfl⟩⟩
        · exact Or.inr ⟨g', by simp [hg'], hcase⟩
      · rintro (h | ⟨g', hg', hcase⟩)
        · exact Or.inl (Or.inl h)
        · rcases List.mem_cons.mp hg' with rfl | hg'r
          · rcases hcase with ⟨_, rfl⟩ | ⟨ht, _⟩
            · exact Or.inl (Or.inr rfl)
            · exact absurd ⟨hs, ht⟩ (not_single_and_two g')
          · exact Or.inr ⟨g', hg'r, hcase⟩
    · split
      · rename_i hns ht
        rw [ih, mem_foldl_addUsed]
        constructor
        · rintro ((h | hmem) | ⟨g', hg', hcase⟩)
          · exact Or.inl h
          · exact Or.inr ⟨g, by simp, Or.inr ⟨ht, hmem⟩⟩
          · exact Or.inr ⟨g', by simp [hg'], hcase⟩
        · rintro (h | ⟨g', hg', hcase⟩)
          · exact Or.inl (Or.inl h)
          · rcases List.mem_cons.mp hg' with rfl | hg'r
            · rcases hcase with ⟨hs, _⟩ | ⟨_, hmem⟩
              · rw [hs] at hns; cases hns rfl
              · exact Or.inl (Or.inr hmem)
            · exact Or.inr ⟨g', hg'r, hcase⟩
      · rename_i hns hnt
        rw [ih]
        constructor
        · rintro (h | ⟨g', hg', hcase⟩)
          · exact Or.inl h
          · exact Or.inr ⟨g', by simp [hg'], hcase⟩
        · rintro (h | ⟨g', hg', hcase⟩)
          · exact Or.inl h
          · rcases List.mem_cons.mp hg' with rfl | hg'r
            · rcases hcase with ⟨hs, _⟩ | ⟨ht, _⟩
              · rw [hs] at hns; cases hns rfl
              · rw [ht] at hnt; cases hnt rfl
            · exact Or.inr ⟨g', hg'r, hcase⟩

theorem singlePos_mem_positions (g : QGate) (hs : g.isSingle = true) :
    g.positions = [g.singlePos] := by
  cases g <;> simp_all [QGate.isSingle, QGate.positions, QGate.singlePos]

theorem mem_usedAfterMeasures (c : QuantumCircuit) (u : Nat) :
    u ∈ usedAfterMeasures c ↔ u ∈ collectUsed c.gates [] ∨
      u ∈ c.measures.map Prod.fst := by
  unfold usedAfterMeasures
  rw [mem_foldl_addUsed]

theorem usedAfterMeasures_nodup (c : QuantumCircuit) :
    (usedAfterMeasures c).Nodup :=
  foldl_addUsed_nodup _ _ (collectUsed_nodup _ _ (by simp))

theorem sortedUsed_perm (c : QuantumCircuit) :
    (sortedUsed c).Perm (usedAfterMeasures c) :=
  List.perm_insertionSort _ _

theorem sortedUsed_sorted_lt (c : QuantumCircuit) :
    (sortedUsed c).Sorted (· < ·) := by
  have hs : (sortedUsed c).Sorted (· ≤ ·) := List.sorted_insertionSort _ _
  have hnd : (sortedUsed c).Nodup :=
    (sortedUsed_perm c).nodup_iff.mpr (usedAfterMeasures_nodup c)
  exact List.Pairwise.imp₂ (fun a b hle hne => lt_of_le_of_ne hle hne) hs hnd

theorem sortedUsed_bound (c : QuantumCircuit) (hg : ∀ g ∈ c.gates, wfGate g c.num)
    (hm : ∀ km ∈ c.measures, km.1 < c.num) :
    ∀ u ∈ sortedUsed c, u < c.num := by
  intro u hu
  have hu2 := (sortedUsed_perm c).subset hu
  rcases (mem_usedAfterMeasures c u).mp hu2 with hcol | hmeas
  · rcases (mem_collectUsed c.gates [] u).mp hcol with h | ⟨g, hgm, hcase⟩
    · cases h
    · have hwf := hg g hgm
      rcases hcase with ⟨hs, rfl⟩ | ⟨_, hmem⟩
      · exact hwf.2 _ (by rw [singlePos_mem_positions g hs]; simp)
      · exact hwf.2 _ hmem
  · obtain ⟨km, hkm, rfl⟩ := List.mem_map.mp hmeas
    exact hm km hkm

/-- C8: in every layout `layered_circuit` returns, all rows have the same
cell-list length, equal to the maximum depth over all wires (so each full
row, index column included, has length `1 + maxdepth`); each row's first
column is its original qubit index and its cells are exactly that qubit's
padded wire; and the rows appear in strictly ascending original-qubit
order. -/
theorem claim_C8_layout_shape (c : QuantumCircuit)
    (L : List (Nat × List Cell)) (hL : layered_circuit c = some L) :
    (∀ r ∈ L, r.2.length = maxdepthOf c) ∧
    (L.map Prod.fst).Sorted (· < ·) ∧
    (∀ r ∈ L, r.2 = paddedWire c r.1) := by
  unfold layered_circuit at hL
  split at hL
  · rename_i hwf
    obtain ⟨hnum, hg, hm⟩ := hwf
    have hLe : L = (sortedUsed c).map fun q => (q, paddedWire c q) :=
      (Option.some.injEq _ _ ▸ hL).symm
    subst hLe
    refine ⟨?_, ?_, ?_⟩
    · intro r hr
      obtain ⟨q, hq, rfl⟩ := List.mem_map.mp hr
      exact paddedWire_length c q (sortedUsed_bound c hg hm q hq)
    · have : ((sortedUsed c).map (fun q => (q, paddedWire c q))).map Prod.fst =
          sortedUsed c := by
        simp [List.map_map, Function.comp_def]
      rw [this]
      exact sortedUsed_sorted_lt c
    · intro r hr
      obtain ⟨q, hq, rfl⟩ := List.mem_map.mp hr
      rfl
  · cases hL

/-! ### Per-step characterisation of the scheduler (claim C2) -/

theorem getD_set_self {α : Type} (l : List α) (j : Nat) (v d : α)
    (hj : j < l.length) : (l.set j v).getD j d = v := by
  rw [List.getD_eq_getElem _ _ (by simpa using hj)]
  simp [List.getElem_set]

theorem getD_set_ne {α : Type} (l : List α) (i j : Nat) (v d : α)
    (h : i ≠ j) : (l.set j v).getD i d = l.getD i d := by
  simp [List.getD, List.getElem?_set_ne (Ne.symm h)]

theorem appendAt_length (rows : List (List Cell)) (j : Nat) (x : Cell) :
    (appendAt rows j x).length = rows.length := by
  simp [appendAt]

theorem appendAt_getD_self (rows : List (List Cell)) (j : Nat) (x : Cell)
    (hj : j < rows.length) :
    (appendAt rows j x).getD j [] = rows.getD j [] ++ [x] :=
  getD_set_self rows j _ [] hj

theorem appendAt_getD_ne (rows : List (List Cell)) (i j : Nat) (x : Cell)
    (h : i ≠ j) : (appendAt rows i x).getD j [] = rows.getD j [] := by
  unfold appendAt
  exact getD_set_ne rows j i _ [] (Ne.symm h)

theorem appendNones_length (js : List Nat) (rows : List (List Cell)) :
    (js.foldl (fun r jj => appendAt r jj none) rows).length = rows.length := by
  induction js generalizing rows with
  | nil => rfl
  | cons j0 js ih => rw [List.foldl_cons, ih, appendAt_length]

theorem appendNones_getD (js : List Nat) (rows : List (List Cell)) (j : Nat)
    (hnd : js.Nodup) (hb : ∀ jj ∈ js, jj < rows.length) :
    (js.foldl (fun r jj => appendAt r jj none) rows).getD j [] =
      if j ∈ js then rows.getD j [] ++ [none] else rows.getD j [] := by
  induction js generalizing rows with
  | nil => simp
  | cons j0 js ih =>
    rw [List.foldl_cons]
    have hnd' : js.Nodup := (List.nodup_cons.mp hnd).2
    have hb' : ∀ jj ∈ js, jj < (appendAt rows j0 none).length := by
      intro jj hjj
      rw [appendAt_length]
      exact hb jj (by simp [hjj])
    rw [ih _ hnd' hb']
    by_cases hj : j = j0
    · subst hj
      have hjn : j ∉ js := (List.nodup_cons.mp hnd).1
      rw [if_neg hjn, if_pos (by simp), appendAt_getD_self rows j none
        (hb j (by simp))]
    · rw [appendAt_getD_ne rows j0 j none (Ne.symm hj)]
      by_cases hjm : j ∈ js
      · rw [if_pos hjm, if_pos (by simp [hjm])]
      · rw [if_neg hjm, if_neg (by simp [hj, hjm])]

theorem padWireTo_length (rows : List (List Cell)) (j m : Nat) :
    (padWireTo rows j m).length = rows.length := by
  unfold padWireTo
  dsimp only
  split
  · rfl
  · simp

theorem padWireTo_getD_self (rows : List (List Cell)) (j m : Nat)
    (hj : j < rows.length) :
    (padWireTo rows j m).getD j [] = padRowTo (rows.getD j []) m := by
  unfold padWireTo padRowTo
  dsimp only
  split
  · rfl
  · exact getD_set_self rows j _ [] hj

theorem padWireTo_getD_ne (rows : List (List Cell)) (i j m : Nat)
    (h : i ≠ j) : (padWireTo rows i m).getD j [] = rows.getD j [] := by
  unfold padWireTo
  dsimp only
  split
  · rfl
  · exact getD_set_ne rows j i _ [] (Ne.symm h)

theorem padFold_length (js : List Nat) (rows : List (List Cell)) (m : Nat) :
    (js.foldl (fun r jj => padWireTo r jj m) rows).length = rows.length := by
  induction js generalizing rows with
  | nil => rfl
  | cons j0 js ih => rw [List.foldl_cons, ih, padWireTo_length]

theorem padFold_getD (js : List Nat) (rows : List (List Cell)) (m j : Nat)
    (hnd : js.Nodup) (hb : ∀ jj ∈ js, jj < rows.length) :
    (js.foldl (fun r jj => padWireTo r jj m) rows).getD j [] =
      if j ∈ js then padRowTo (rows.getD j []) m else rows.getD j [] := by
  induction js generalizing rows with
  | nil => simp
  | cons j0 js ih =>
    rw [List.foldl_cons]
    have hnd' : js.Nodup := (List.nodup_cons.mp hnd).2
    have hb' : ∀ jj ∈ js, jj < (padWireTo rows j0 m).length := by
      intro jj hjj
      rw [padWireTo_length]
      exact hb jj (by simp [hjj])
    rw [ih _ hnd' hb']
    by_cases hj : j = j0
    · subst hj
      have hjn : j ∉ js := (List.nodup_cons.mp hnd).1
      rw [if_neg hjn, if_pos (by simp),
        padWireTo_getD_self rows j m (hb j (by simp))]
    · rw [padWireTo_getD_ne rows j0 j m (Ne.symm hj)]
      by_cases hjm : j ∈ js
      · rw [if_pos hjm, if_pos (by simp [hjm])]
      · rw [if_neg hjm, if_neg (by simp [hj, hjm])]

theorem padRowTo_append_single (old : List Cell) (cell : Cell) (m : Nat)
    (h : old.length + 1 ≤ m) :
    padRowTo (old ++ [cell]) m =
      old ++ List.replicate (m - (old.length + 1)) none ++ [cell] := by
  unfold padRowTo
  by_cases he : (old ++ [cell]).length = m
  · rw [if_pos he]
    simp at he
    have : m - (old.length + 1) = 0 := by omega
    rw [this]
    simp
  · rw [if_neg he]
    unfold insertNones
    have hlen : (old ++ [cell]).length = old.length + 1 := by simp
    rw [hlen]
    have h1 : old.length + 1 - 1 = old.length := by omega
    rw [h1, List.take_left, List.drop_left]

theorem foldl_min_le_init (l : List Nat) (a : Nat) : l.foldl min a ≤ a := by
  induction l generalizing a with
  | nil => exact le_refl a
  | cons x xs ih => exact le_trans (ih (min a x)) (min_le_left a x)

theorem foldl_max_mem (l : List Nat) (a : Nat) : l.foldl max a ∈ a :: l := by
  induction l generalizing a with
  | nil => simp
  | cons x xs ih =>
    rw [List.foldl_cons]
    rcases List.mem_cons.mp (ih (max a x)) with he | hmem
    · rcases max_choice a x with h1 | h1
      · exact List.mem_cons.mpr (Or.inl (he.trans h1))
      · exact List.mem_cons.mpr (Or.inr (List.mem_cons.mpr
          (Or.inl (he.trans h1))))
    · exact List.mem_cons.mpr (Or.inr (List.mem_cons.mpr (Or.inr hmem)))

theorem foldl_min_mem (l : List Nat) (a : Nat) : l.foldl min a ∈ a :: l := by
  induction l generalizing a with
  | nil => simp
  | cons x xs ih =>
    rw [List.foldl_cons]
    rcases List.mem_cons.mp (ih (min a x)) with he | hmem
    · rcases min_choice a x with h1 | h1
      · exact List.mem_cons.mpr (Or.inl (he.trans h1))
      · exact List.mem_cons.mpr (Or.inr (List.mem_cons.mpr
          (Or.inl (he.trans h1))))
    · exact List.mem_cons.mpr (Or.inr (List.mem_cons.mpr (Or.inr hmem)))

theorem minPos_le_maxPos (g : QGate) (h : g.positions ≠ []) :
    minPos g ≤ maxPos g := by
  unfold minPos maxPos
  cases hp : g.positions with
  | nil => exact absurd hp h
  | cons p ps =>
    exact le_trans (foldl_min_le_init ps p) (foldl_max_init_le ps p)

theorem minPos_mem (g : QGate) (h : g.positions ≠ []) :
    minPos g ∈ g.positions := by
  unfold minPos
  cases hp : g.positions with
  | nil => exact absurd hp h
  | cons p ps => exact foldl_min_mem ps p

theorem maxPos_mem (g : QGate) (h : g.positions ≠ []) :
    maxPos g ∈ g.positions := by
  unfold maxPos
  cases hp : g.positions with
  | nil => exact absurd hp h
  | cons p ps => exact foldl_max_mem ps p

theorem layerStep_length (rows : List (List Cell)) (g : QGate) :
    (layerStep rows g).length = rows.length := by
  unfold layerStep
  split
  · exact appendAt_length rows _ _
  · dsimp only
    rw [padFold_length, appendNones_length, appendAt_length]

/-- Full characterisation of the scheduler step on a non-single-qubit
gate (the `Barrier`/`TwoQubitGate` branch): all wires in the span
`[minPos, maxPos]` end up with the common length `maxlayer`, the low wire
ends with the gate reference, every other spanned wire ends with a
placeholder, and wires outside the span are untouched. -/
theorem layerStep_span (rows : List (List Cell)) (g : QGate)
    (hns : g.isSingle = false) (hlo : minPos g ≤ maxPos g)
    (hhi : maxPos g < rows.length) :
    ∃ M,
      (∀ j, minPos g ≤ j → j ≤ maxPos g →
        (rows.getD j []).length < M ∧
        ((layerStep rows g).getD j []).length = M) ∧
      ((layerStep rows g).getD (minPos g) [] =
        rows.getD (minPos g) [] ++
          List.replicate (M - ((rows.getD (minPos g) []).length + 1)) none ++
          [some g]) ∧
      (∀ j, minPos g < j → j ≤ maxPos g →
        (layerStep rows g).getD j [] =
          rows.getD j [] ++
            List.replicate (M - ((rows.getD j []).length + 1)) none ++
            [none]) ∧
      (∀ j, j < minPos g ∨ maxPos g < j →
        (layerStep rows g).getD j [] = rows.getD j []) := by
  have hstep : layerStep rows g =
      (List.range' (minPos g) (maxPos g + 1 - minPos g)).foldl
        (fun r j => padWireTo r j
          (spanMax ((List.range' (minPos g + 1) (maxPos g - minPos g)).foldl
            (fun r j => appendAt r j none) (appendAt rows (minPos g) (some g)))
            (minPos g) (maxPos g)))
        ((List.range' (minPos g + 1) (maxPos g - minPos g)).foldl
          (fun r j => appendAt r j none) (appendAt rows (minPos g) (some g))) := by
    unfold layerStep
    rw [if_neg (by simp [hns])]
  have hlo_lt : minPos g < rows.length := lt_of_le_of_lt hlo hhi
  have h1len : (appendAt rows (minPos g) (some g)).length = rows.length :=
    appendAt_length rows _ _
  have hrow2 : ∀ j,
      ((List.range' (minPos g + 1) (maxPos g - minPos g)).foldl
        (fun r j => appendAt r j none)
        (appendAt rows (minPos g) (some g))).getD j [] =
      if j = minPos g then rows.getD j [] ++ [some g]
      else if minPos g + 1 ≤ j ∧ j ≤ maxPos g then rows.getD j [] ++ [none]
      else rows.getD j [] := by
    intro j
    rw [appendNones_getD _ _ j (List.nodup_range' _ _)
      (fun jj hjj => by
        rw [h1len]
        have := List.mem_range'_1.mp hjj
        omega)]
    by_cases hj : j = minPos g
    · subst hj
      rw [if_neg (by
          intro hmem
          have := List.mem_range'_1.mp hmem
          omega
        ), if_pos rfl,
        appendAt_getD_self rows _ _ hlo_lt]
    · rw [if_neg hj, appendAt_getD_ne rows _ j _ (fun he => hj he.symm)]
      by_cases hjm : minPos g + 1 ≤ j ∧ j ≤ maxPos g
      · rw [if_pos (List.mem_range'_1.mpr ⟨hjm.1, by omega⟩), if_pos hjm]
      · rw [if_neg (fun hmem => hjm (by
          have := List.mem_range'_1.mp hmem
          omega)), if_neg hjm]
  have h2len : ((List.range' (minPos g + 1) (maxPos g - minPos g)).foldl
      (fun r j => appendAt r j none)
      (appendAt rows (minPos g) (some g))).length = rows.length := by
    rw [appendNones_length, h1len]
  set rows2 := (List.range' (minPos g + 1) (maxPos g - minPos g)).foldl
    (fun r j => appendAt r j none) (appendAt rows (minPos g) (some g)) with hrows2
  set M := spanMax rows2 (minPos g) (maxPos g) with hM
  have hlen2 : ∀ j, minPos g ≤ j → j ≤ maxPos g →
      (rows2.getD j []).length = (rows.getD j []).length + 1 := by
    intro j h1 h2
    rw [hrow2 j]
    by_cases hj : j = minPos g
    · rw [if_pos hj]; simp
    · rw [if_neg hj, if_pos ⟨by omega, h2⟩]; simp
  have hMge : ∀ j, minPos g ≤ j → j ≤ maxPos g →
      (rows2.getD j []).length ≤ M := by
    intro j h1 h2
    apply le_foldl_max_of_mem _ 0
    exact List.mem_map.mpr ⟨j, List.mem_range'_1.mpr ⟨h1, by omega⟩, rfl⟩
  have hresult : ∀ j, (layerStep rows g).getD j [] =
      if minPos g ≤ j ∧ j ≤ maxPos g then padRowTo (rows2.getD j []) M
      else rows2.getD j [] := by
    intro j
    rw [hstep]
    rw [padFold_getD _ _ _ j (List.nodup_range' _ _)
      (fun jj hjj => by
        rw [h2len]
        have := List.mem_range'_1.mp hjj
        omega)]
    by_cases hjm : minPos g ≤ j ∧ j ≤ maxPos g
    · rw [if_pos (List.mem_range'_1.mpr ⟨hjm.1, by omega⟩), if_pos hjm]
    · rw [if_neg (fun hmem => hjm (by
        have := List.mem_range'_1.mp hmem
        omega)), if_neg hjm]
  refine ⟨M, ?_, ?_, ?_, ?_⟩
  · intro j h1 h2
    have hle : (rows.getD j []).length + 1 ≤ M := by
      rw [← hlen2 j h1 h2]
      exact hMge j h1 h2
    constructor
    · omega
    · rw [hresult j, if_pos ⟨h1, h2⟩, hrow2 j]
      by_cases hj : j = minPos g
      · rw [if_pos hj]
        rw [padRowTo_append_single _ _ _ (by subst hj; omega)]
        subst hj
        simp only [List.length_append, List.length_replicate,
          List.length_cons, List.length_nil]
        omega
      · rw [if_neg hj, if_pos ⟨by omega, h2⟩]
        rw [padRowTo_append_single _ _ _ (by omega)]
        simp only [List.length_append, List.length_replicate,
          List.length_cons, List.length_nil]
        omega
  · have h1 : minPos g ≤ minPos g := le_refl _
    have hle : (rows.getD (minPos g) []).length + 1 ≤ M := by
      rw [← hlen2 _ h1 hlo]
      exact hMge _ h1 hlo
    rw [hresult _, if_pos ⟨h1, hlo⟩, hrow2 _, if_pos rfl,
      padRowTo_append_single _ _ _ hle]
  · intro j h1 h2
    have hle : (rows.getD j []).length + 1 ≤ M := by
      rw [← hlen2 j (by omega) h2]
      exact hMge j (by omega) h2
    rw [hresult j, if_pos ⟨by omega, h2⟩, hrow2 j, if_neg (by omega),
      if_pos ⟨by omega, h2⟩, padRowTo_append_single _ _ _ hle]
  · intro j hout
    rw [hresult j, if_neg (by omega), hrow2 j, if_neg (by omega),
      if_neg (by omega)]

theorem wf_single_pos (g : QGate) (num : Nat) (hs : g.isSingle = true)
    (hwf : wfGate g num) : g.singlePos < num :=
  hwf.2 _ (by rw [singlePos_mem_positions g hs]; simp)

theorem wf_maxPos_lt (g : QGate) (num : Nat) (hwf : wfGate g num) :
    maxPos g < num :=
  hwf.2 _ (maxPos_mem g hwf.1)

theorem layerStep_single_getD (rows : List (List Cell)) (g : QGate)
    (hs : g.isSingle = true) (hsp : g.singlePos < rows.length) (j : Nat) :
    (layerStep rows g).getD j [] =
      if j = g.singlePos then rows.getD j [] ++ [some g]
      else rows.getD j [] := by
  unfold layerStep
  rw [if_pos hs]
  by_cases hj : j = g.singlePos
  · subst hj
    rw [if_pos rfl, appendAt_getD_self _ _ _ hsp]
  · rw [if_neg hj, appendAt_getD_ne _ _ _ _ (fun he => hj he.symm)]

theorem layerStep_len_mono (rows : List (List Cell)) (g : QGate)
    (hwf : wfGate g rows.length) (j : Nat) :
    (rows.getD j []).length ≤ ((layerStep rows g).getD j []).length := by
  by_cases hs : g.isSingle = true
  · rw [layerStep_single_getD rows g hs (wf_single_pos g _ hs hwf) j]
    split <;> simp
  · have hb : g.isSingle = false := by simpa using hs
    obtain ⟨M, hMlen, _, _, hout⟩ := layerStep_span rows g hb
      (minPos_le_maxPos g hwf.1) (wf_maxPos_lt g _ hwf)
    by_cases hj : minPos g ≤ j ∧ j ≤ maxPos g
    · have := hMlen j hj.1 hj.2
      omega
    · rw [hout j (by omega)]

theorem layerStep_get_stable (rows : List (List Cell)) (g : QGate)
    (hwf : wfGate g rows.length) (j i : Nat)
    (hi : i < (rows.getD j []).length) :
    ((layerStep rows g).getD j [])[i]? = (rows.getD j [])[i]? := by
  by_cases hs : g.isSingle = true
  · rw [layerStep_single_getD rows g hs (wf_single_pos g _ hs hwf) j]
    split
    · exact List.getElem?_append_left hi
    · rfl
  · have hb : g.isSingle = false := by simpa using hs
    obtain ⟨M, hMlen, hrlo, hrmid, hout⟩ := layerStep_span rows g hb
      (minPos_le_maxPos g hwf.1) (wf_maxPos_lt g _ hwf)
    by_cases hj : minPos g ≤ j ∧ j ≤ maxPos g
    · have hrow : (layerStep rows g).getD j [] =
          rows.getD j [] ++
            List.replicate (M - ((rows.getD j []).length + 1)) none ++
            [if j = minPos g then some g else none] := by
        by_cases hjlo : j = minPos g
        · subst hjlo
          rw [if_pos rfl]
          exact hrlo
        · rw [if_neg hjlo]
          exact hrmid j (by omega) hj.2
      rw [hrow, List.append_assoc, List.getElem?_append_left hi]
    · rw [hout j (by omega)]

theorem foldl_layerStep_length (gs : List QGate) (rows : List (List Cell)) :
    (gs.foldl layerStep rows).length = rows.length := by
  induction gs generalizing rows with
  | nil => rfl
  | cons g rest ih => rw [List.foldl_cons, ih, layerStep_length]

theorem foldl_layerStep_len_mono (gs : List QGate) (rows : List (List Cell))
    (hwf : ∀ g ∈ gs, wfGate g rows.length) (j : Nat) :
    (rows.getD j []).length ≤ ((gs.foldl layerStep rows).getD j []).length := by
  induction gs generalizing rows with
  | nil => exact le_refl _
  | cons g rest ih =>
    rw [List.foldl_cons]
    refine le_trans (layerStep_len_mono rows g (hwf g (by simp)) j) (ih _ ?_)
    intro g' hg'
    rw [layerStep_length]
    exact hwf g' (by simp [hg'])

theorem foldl_layerStep_get_stable (gs : List QGate) (rows : List (List Cell))
    (hwf : ∀ g ∈ gs, wfGate g rows.length) (j i : Nat)
    (hi : i < (rows.getD j []).length) :
    ((gs.foldl layerStep rows).getD j [])[i]? = (rows.getD j [])[i]? := by
  induction gs generalizing rows with
  | nil => rfl
  | cons g rest ih =>
    rw [List.foldl_cons]
    have hwf' : ∀ g' ∈ rest, wfGate g' (layerStep rows g).length := by
      intro g' hg'
      rw [layerStep_length]
      exact hwf g' (by simp [hg'])
    have hi' : i < ((layerStep rows g).getD j []).length :=
      lt_of_lt_of_le hi (layerStep_len_mono rows g (hwf g (by simp)) j)
    rw [ih _ hwf' hi', layerStep_get_stable rows g (hwf g (by simp)) j i hi]

theorem rowsAfter_length (c : QuantumCircuit) (n : Nat) :
    (rowsAfter c n).length = c.num := by
  unfold rowsAfter
  rw [foldl_layerStep_length]
  simp

theorem rowsAfter_succ (c : QuantumCircuit) (i : Nat) (g : QGate)
    (hg : c.gates[i]? = some g) :
    rowsAfter c (i + 1) = layerStep (rowsAfter c i) g := by
  unfold rowsAfter
  rw [List.take_succ, hg]
  simp [List.foldl_append]

theorem wireRows_eq_foldl_drop (c : QuantumCircuit) (n : Nat) :
    wireRows c = (c.gates.drop n).foldl layerStep (rowsAfter c n) := by
  unfold wireRows rowsAfter
  rw [← List.foldl_append, List.take_append_drop]

/-- C2: for every two-qubit gate in the gate sequence, spanning qubits
`[lo, hi]` with `lo = min` and `hi = max` of its positions, the column at
which the scheduler placed the gate's entry in row `lo` equals the column
of the placeholder entry placed for it in row `hi`; in the final layout
the row carrying index `lo` holds the gate reference at that column and
the row carrying index `hi` holds the placeholder (`None`) there. -/
theorem claim_C2_two_qubit_left_justified (c : QuantumCircuit)
    (L : List (Nat × List Cell)) (hL : layered_circuit c = some L)
    (i : Nat) (g : QGate) (hg : c.gates[i]? = some g)
    (htwo : g.isTwo = true) :
    placedColumn c i (minPos g) = placedColumn c i (maxPos g) ∧
    (∃ r ∈ L, r.1 = minPos g ∧
      r.2[placedColumn c i (minPos g)]? = some (some g)) ∧
    (∃ r ∈ L, r.1 = maxPos g ∧ (minPos g < maxPos g →
      r.2[placedColumn c i (minPos g)]? = some (none : Cell))) := by
  have hmemg : g ∈ c.gates := by
    have := List.getElem?_eq_some_iff.mp hg
    obtain ⟨hlt, heq⟩ := this
    exact heq ▸ List.getElem_mem hlt
  unfold layered_circuit at hL
  split at hL
  case isFalse => cases hL
  rename_i hwfs
  obtain ⟨hnum, hgwf, hmwf⟩ := hwfs
  have hLe : L = (sortedUsed c).map fun q => (q, paddedWire c q) :=
    (Option.some.injEq _ _ ▸ hL).symm
  have hwfg : wfGate g c.num := hgwf g hmemg
  have hns : g.isSingle = false := by
    cases hand : g.isSingle
    · rfl
    · exact absurd ⟨hand, htwo⟩ (not_single_and_two g)
  have hlolehi : minPos g ≤ maxPos g := minPos_le_maxPos g hwfg.1
  have hrlen : (rowsAfter c i).length = c.num := rowsAfter_length c i
  have hhi : maxPos g < (rowsAfter c i).length := by
    rw [hrlen]
    exact wf_maxPos_lt g _ hwfg
  have hstep : rowsAfter c (i + 1) = layerStep (rowsAfter c i) g :=
    rowsAfter_succ c i g hg
  obtain ⟨M, hMlen, hrlo, hrmid, _⟩ :=
    layerStep_span (rowsAfter c i) g hns hlolehi hhi
  have hlenlo : ((rowsAfter c (i + 1)).getD (minPos g) []).length = M := by
    rw [hstep]
    exact (hMlen (minPos g) (le_refl _) hlolehi).2
  have hlenhi : ((rowsAfter c (i + 1)).getD (maxPos g) []).length = M := by
    rw [hstep]
    exact (hMlen (maxPos g) hlolehi (le_refl _)).2
  have hMpos : 0 < M := by
    have := (hMlen (minPos g) (le_refl _) hlolehi).1
    omega
  have hcol : placedColumn c i (minPos g) = M - 1 := by
    unfold placedColumn
    rw [hlenlo]
  have hcolhi : placedColumn c i (maxPos g) = M - 1 := by
    unfold placedColumn
    rw [hlenhi]
  -- the cell placed on wire lo / hi right after step i
  have hgetlo : ((rowsAfter c (i + 1)).getD (minPos g) [])[M - 1]? =
      some (some g) := by
    rw [hstep, hrlo]
    have hl : ((rowsAfter c i).getD (minPos g) [] ++
        List.replicate (M - (((rowsAfter c i).getD (minPos g) []).length + 1))
          none).length = M - 1 := by
      have := (hMlen (minPos g) (le_refl _) hlolehi).1
      simp only [List.length_append, List.length_replicate]
      omega
    rw [← hl, List.getElem?_concat_length]
  have hgethi : minPos g < maxPos g →
      ((rowsAfter c (i + 1)).getD (maxPos g) [])[M - 1]? =
        some (none : Cell) := by
    intro hlt
    rw [hstep, hrmid (maxPos g) hlt (le_refl _)]
    have hl : ((rowsAfter c i).getD (maxPos g) [] ++
        List.replicate (M - (((rowsAfter c i).getD (maxPos g) []).length + 1))
          none).length = M - 1 := by
      have := (hMlen (maxPos g) hlolehi (le_refl _)).1
      simp only [List.length_append, List.length_replicate]
      omega
    rw [← hl, List.getElem?_concat_length]
  -- push the two facts through the remaining steps and the final padding
  have hdropwf : ∀ g' ∈ c.gates.drop (i + 1),
      wfGate g' (rowsAfter c (i + 1)).length := by
    intro g' hg'
    rw [rowsAfter_length]
    exact hgwf g' (List.mem_of_mem_drop hg')
  have hwire : ∀ q, ((rowsAfter c (i + 1)).getD q []).length = M →
      ((rowsAfter c (i + 1)).getD q [])[M - 1]? = ((wireRows c).getD q [])[M - 1]? := by
    intro q hq
    rw [wireRows_eq_foldl_drop c (i + 1)]
    rw [foldl_layerStep_get_stable _ _ hdropwf q (M - 1) (by omega)]
  have hpad : ∀ q, ((rowsAfter c (i + 1)).getD q []).length = M →
      (paddedWire c q)[M - 1]? = ((wireRows c).getD q [])[M - 1]? := by
    intro q hq
    unfold paddedWire
    apply List.getElem?_append_left
    have hmono : M ≤ ((wireRows c).getD q []).length := by
      rw [wireRows_eq_foldl_drop c (i + 1), ← hq]
      exact foldl_layerStep_len_mono _ _ hdropwf q
    omega
  -- membership of lo and hi in the sorted active list
  have hmemused : ∀ p ∈ g.positions, p ∈ sortedUsed c := by
    intro p hp
    apply (sortedUsed_perm c).mem_iff.mpr
    apply (mem_usedAfterMeasures c p).mpr
    exact Or.inl ((mem_collectUsed c.gates [] p).mpr
      (Or.inr ⟨g, hmemg, Or.inr ⟨htwo, hp⟩⟩))
  refine ⟨by rw [hcol, hcolhi], ?_, ?_⟩
  · refine ⟨(minPos g, paddedWire c (minPos g)), ?_, rfl, ?_⟩
    · rw [hLe]
      exact List.mem_map.mpr ⟨minPos g, hmemused _ (minPos_mem g hwfg.1), rfl⟩
    · rw [hcol]
      dsimp only
      rw [hpad _ hlenlo, ← hwire _ hlenlo]
      exact hgetlo
  · refine ⟨(maxPos g, paddedWire c (maxPos g)), ?_, rfl, ?_⟩
    · rw [hLe]
      exact List.mem_map.mpr ⟨maxPos g, hmemused _ (maxPos_mem g hwfg.1), rfl⟩
    · intro hlt
      rw [hcol]
      dsimp only
      rw [hpad _ hlenhi, ← hwire _ hlenhi]
      exact hgethi hlt

/-- Concrete instantiation of C2 on the end-to-end example circuit at its
`CX(0,1)` gate (program index 1). -/
theorem claim_C2_two_qubit_left_justified_witness :
    (((((QuantumCircuit.init 2).h 0).cnot 0 1).measure [0, 1] 1000 [0, 1]
        false).1.gates[1]? = some (QGate.CXGate 0 1)) ∧
    (placedColumn ((((QuantumCircuit.init 2).h 0).cnot 0 1).measure [0, 1]
        1000 [0, 1] false).1 1 (minPos (QGate.CXGate 0 1)) =
      placedColumn ((((QuantumCircuit.init 2).h 0).cnot 0 1).measure [0, 1]
        1000 [0, 1] false).1 1 (maxPos (QGate.CXGate 0 1))) :=
  ⟨by decide,
    (claim_C2_two_qubit_left_justified
      ((((QuantumCircuit.init 2).h 0).cnot 0 1).measure [0, 1] 1000 [0, 1]
        false).1
      [(0, [some (QGate.HGate 0), some (QGate.CXGate 0 1)]), (1, [none, none])]
      (by decide) 1 (QGate.CXGate 0 1) (by decide) (by decide)).1⟩

/-- Concrete instantiation of C8 on the end-to-end example circuit. -/
theorem claim_C8_layout_shape_witness :
    layered_circuit bellCircuit = some bellLayout ∧
    ((0, [some (QGate.HGate 0), some (QGate.CXGate 0 1)]) :
      Nat × List Cell).2.length = maxdepthOf bellCircuit :=
  ⟨by decide,
    (claim_C8_layout_shape bellCircuit bellLayout (by decide)).1 _ (by decide)⟩

/-- C5 counterexample: the claim describes the end-to-end example layout
as 2 rows × 2 layer columns with row 0 = `[H, CX]` and row 1 =
`[∅, CX]`.  The scheduler stores the gate reference only on the wire of
`min(pos)` and appends the empty placeholder to every other wire of the
span (`gateQlist[j].append(None)`, quantum_circuit.py line 75), so row 1
of the computed layout is `[∅, ∅]`, not `[∅, CX]`. -/
theorem claim_C5_example_counterexample :
    layered_circuit bellCircuit = some bellLayout ∧
    bellLayout.getD 1 (0, []) = (1, [none, none]) ∧
    ((1, [none, none]) : Nat × List Cell) ≠
      (1, [none, some (QGate.CXGate 0 1)]) :=
  ⟨by decide, by decide, by decide⟩

/-- C5 amended: the 2-qubit circuit `H(0)`, `CX(0,1)`,
`measure([0,1] → [0,1])` exports to exactly the header plus
`h q[0];`, `cx q[0],q[1];`, `measure q[0] -> meas[0];`,
`measure q[1] -> meas[1];` in that order, and its layered layout has
2 rows and 2 layer columns with row 0 = `[H, CX]` and row 1 = `[∅, ∅]`
(the `CX` occupies row 1 through a placeholder; the gate reference is
stored on the minimum-position wire only). -/
theorem claim_C5_example :
    to_openqasm bellCircuit =
      ("OPENQASM 2.0;\n" ++ "include \"qelib1.inc\";\n" ++ "qreg q[2];\n" ++
        "creg meas[2];\n" ++ "h q[0];\n" ++ "cx q[0],q[1];\n" ++
        "measure q[0] -> meas[0];\n" ++
        "measure q[1] -> meas[1];\n").toList ∧
    layered_circuit bellCircuit = some bellLayout :=
  ⟨by decide, by decide⟩

/-! ### Number printing/parsing round-trips -/

theorem natDigitsAux_eq (fuel : Nat) :
    ∀ n, n ≤ fuel → natDigitsAux fuel n = Nat.digits 10 n := by
  induction fuel with
  | zero =>
    intro n h
    interval_cases n
    simp [natDigitsAux]
  | succ fuel ih =>
    intro n h
    match n with
    | 0 => simp [natDigitsAux]
    | n + 1 =>
      have hdiv : (n + 1) / 10 ≤ fuel := by omega
      show ((n + 1) % 10) :: natDigitsAux fuel ((n + 1) / 10) = _
      rw [ih _ hdiv,
        Nat.digits_def' (show (1 : ℕ) < 10 by omega) (show 0 < n + 1 by omega)]

theorem natToStr_eq (n : Nat) :
    natToStr n =
      if n = 0 then ['0'] else ((Nat.digits 10 n).map digitChar).reverse := by
  unfold natToStr
  by_cases h : n = 0
  · simp [h]
  · rw [if_neg h, if_neg h, natDigitsAux_eq n n (le_refl n)]

theorem charVal_digitChar : ∀ d, d < 10 → charVal (digitChar d) = d := by
  decide

theorem digitChar_isDigit : ∀ d, d < 10 → (digitChar d).isDigit = true := by
  decide

theorem natToStr_ne_nil (n : Nat) : natToStr n ≠ [] := by
  rw [natToStr_eq]
  by_cases h : n = 0
  · simp [h]
  · rw [if_neg h]
    simp only [ne_eq, List.reverse_eq_nil_iff, List.map_eq_nil_iff]
    exact Nat.digits_ne_nil_iff_ne_zero.mpr h

theorem natToStr_all_digits (n : Nat) :
    ∀ c ∈ natToStr n, c.isDigit = true := by
  rw [natToStr_eq]
  by_cases h : n = 0
  · rw [if_pos h]
    decide
  · rw [if_neg h]
    intro c hc
    rw [List.mem_reverse] at hc
    obtain ⟨d, hd, rfl⟩ := List.mem_map.mp hc
    exact digitChar_isDigit d (Nat.digits_lt_base (by omega) hd)

theorem strToNat_natToStr (n : Nat) : strToNat (natToStr n) = n := by
  rw [natToStr_eq]
  by_cases h : n = 0
  · rw [if_pos h, h]
    decide
  · rw [if_neg h]
    unfold strToNat
    rw [List.map_reverse, List.reverse_reverse, List.map_map]
    have hmap : ∀ d ∈ Nat.digits 10 n, (charVal ∘ digitChar) d = id d := by
      intro d hd
      exact charVal_digitChar d (Nat.digits_lt_base (by omega) hd)
    rw [List.map_congr_left hmap, List.map_id, Nat.ofDigits_digits]

/-! ### digitRuns computations -/

theorem digitRunsAux_nil (cur : Str) :
    digitRunsAux [] cur = if cur = [] then [] else [cur.reverse] := rfl

theorem digitRunsAux_cons (c : Char) (s cur : Str) :
    digitRunsAux (c :: s) cur =
      if c.isDigit then digitRunsAux s (c :: cur)
      else if cur = [] then digitRunsAux s []
      else cur.reverse :: digitRunsAux s [] := rfl

theorem digitRunsAux_digits (D : Str) (hD : ∀ c ∈ D, c.isDigit = true) :
    ∀ s cur, digitRunsAux (D ++ s) cur = digitRunsAux s (D.reverse ++ cur) := by
  induction D with
  | nil => intro s cur; simp
  | cons d D ih =>
    intro s cur
    rw [List.cons_append, digitRunsAux_cons, if_pos (hD d (by simp)),
      ih (fun c hc => hD c (by simp [hc])) s (d :: cur)]
    simp

theorem digitRuns_nondigit_cons (c : Char) (s : Str)
    (h : c.isDigit = false) : digitRuns (c :: s) = digitRuns s := by
  unfold digitRuns
  rw [digitRunsAux_cons, h]
  simp

theorem digitRuns_digits_append (D rest : Str) (hne : D ≠ [])
    (hD : ∀ c ∈ D, c.isDigit = true) (hr : nonDigitHead rest) :
    digitRuns (D ++ rest) = D :: digitRuns rest := by
  unfold digitRuns
  rw [digitRunsAux_digits D hD rest [], List.append_nil]
  rcases hr with rfl | ⟨c, s2, rfl, hc⟩
  · rw [digitRunsAux_nil, digitRunsAux_nil,
      if_neg (by simpa using hne)]
    simp
  · rw [digitRunsAux_cons, digitRunsAux_cons, hc]
    simp only [Bool.false_eq_true, if_false]
    rw [if_neg (by simpa using hne)]
    simp

theorem digitRuns_qref (p : Nat) (rest : Str) (hr : nonDigitHead rest) :
    digitRuns (qref p ++ rest) = natToStr p :: digitRuns rest := by
  unfold qref
  have h1 : ('q' :: '[' :: (natToStr p ++ [']'])) ++ rest =
      'q' :: '[' :: (natToStr p ++ (']' :: rest)) := by simp
  rw [h1, digitRuns_nondigit_cons _ _ (by decide),
    digitRuns_nondigit_cons _ _ (by decide),
    digitRuns_digits_append _ _ (natToStr_ne_nil p) (natToStr_all_digits p)
      (Or.inr ⟨']', rest, rfl, by decide⟩),
    digitRuns_nondigit_cons _ _ (by decide)]

/-! ### Splitting and stripping lemmas -/

theorem splitFirstChar_no_sep (sep : Char) (s : Str)
    (h : ∀ c ∈ s, c ≠ sep) : splitFirstChar sep s = (s, none) := by
  induction s with
  | nil => rfl
  | cons c rest ih =>
    unfold splitFirstChar
    rw [if_neg (h c (by simp)), ih (fun c hc => h c (by simp [hc]))]

theorem splitFirstChar_append (sep : Char) (w r : Str)
    (h : ∀ c ∈ w, c ≠ sep) :
    splitFirstChar sep (w ++ sep :: r) = (w, some r) := by
  induction w with
  | nil =>
    show splitFirstChar sep (sep :: r) = _
    unfold splitFirstChar
    rw [if_pos rfl]
  | cons c rest ih =>
    rw [List.cons_append]
    unfold splitFirstChar
    rw [if_neg (h c (by simp)), ih (fun c hc => h c (by simp [hc]))]

theorem splitOnCharAux_no_sep (sep : Char) (s : Str)
    (h : ∀ c ∈ s, c ≠ sep) :
    ∀ cur, splitOnCharAux sep s cur = [cur.reverse ++ s] := by
  induction s with
  | nil => intro cur; simp [splitOnCharAux]
  | cons c rest ih =>
    intro cur
    show splitOnCharAux sep (c :: rest) cur = _
    unfold splitOnCharAux
    rw [if_neg (h c (by simp)), ih (fun c hc => h c (by simp [hc])) (c :: cur)]
    simp

theorem splitOnChar_no_sep (sep : Char) (s : Str)
    (h : ∀ c ∈ s, c ≠ sep) : splitOnChar sep s = [s] := by
  unfold splitOnChar
  rw [splitOnCharAux_no_sep sep s h []]
  rfl

theorem splitOnChar_one_sep (sep : Char) (a b : Str)
    (ha : ∀ c ∈ a, c ≠ sep) (hb : ∀ c ∈ b, c ≠ sep) :
    splitOnChar sep (a ++ sep :: b) = [a, b] := by
  unfold splitOnChar
  have haux : ∀ cur, splitOnCharAux sep (a ++ sep :: b) cur =
      (cur.reverse ++ a) :: [b] := by
    induction a with
    | nil =>
      intro cur
      show splitOnCharAux sep (sep :: b) cur = _
      unfold splitOnCharAux
      rw [if_pos rfl, splitOnCharAux_no_sep sep b hb []]
      simp
    | cons c rest ih =>
      intro cur
      rw [List.cons_append]
      unfold splitOnCharAux
      rw [if_neg (ha c (by simp)), ih (fun c hc => ha c (by simp [hc]))
        (c :: cur)]
      simp
  rw [haux []]
  rfl

theorem dropWhile_cons_neg {p : Char → Bool} (c : Char) (s : Str)
    (h : p c = false) : (c :: s).dropWhile p = c :: s := by
  simp [List.dropWhile_cons, h]

theorem dropWhile_all_false {p : Char → Bool} (l : Str)
    (h : ∀ x ∈ l, p x = false) : l.dropWhile p = l := by
  induction l with
  | nil => rfl
  | cons a t _ =>
    rw [List.dropWhile_cons, h a (by simp)]
    simp

theorem stripParens_wrap (s : Str) (hne : s ≠ [])
    (h : ∀ c ∈ s, isParen c = false) : stripParens (s ++ [')']) = s := by
  unfold stripParens
  match s, hne with
  | c :: s2, _ =>
    rw [List.cons_append, dropWhile_cons_neg c _ (h c (by simp))]
    have hrev : (c :: (s2 ++ [')'])).reverse = ')' :: (s2.reverse ++ [c]) := by
      simp
    rw [hrev, List.dropWhile_cons, if_pos (by decide)]
    have hall : ∀ x ∈ s2.reverse ++ [c], isParen x = false := by
      intro x hx
      rcases List.mem_append.mp hx with h1 | h1
      · exact h x (by simp [List.mem_reverse.mp h1])
      · have hxc : x = c := by simpa using h1
        exact hxc ▸ h c (by simp)
    rw [dropWhile_all_false _ hall]
    simp

/-! ### Parameter printing facts and round-trip -/

theorem paraStr_chars (q : ℚ) :
    ∀ c ∈ paraStr q, c.isDigit = true ∨ c = '-' ∨ c = '/' := by
  intro c hc
  unfold paraStr at hc
  rcases List.mem_append.mp hc with h1 | h1
  · rcases List.mem_append.mp h1 with h2 | h2
    · split at h2
      · have : c = '-' := by simpa using h2
        exact Or.inr (Or.inl this)
      · simp at h2
    · exact Or.inl (natToStr_all_digits _ c h2)
  · split at h1
    · simp at h1
    · rcases List.mem_cons.mp h1 with rfl | h2
      · exact Or.inr (Or.inr rfl)
      · exact Or.inl (natToStr_all_digits _ c h2)

theorem isDigit_ne (c : Char) (hc : c.isDigit = true) :
    c ≠ '(' ∧ c ≠ ')' ∧ c ≠ ' ' ∧ c ≠ ',' ∧ c ≠ '\n' ∧ c ≠ '/' ∧
      c ≠ '-' ∧ c ≠ 'p' := by
  refine ⟨?_, ?_, ?_, ?_, ?_, ?_, ?_, ?_⟩ <;>
    (intro he; rw [he] at hc; exact absurd hc (by decide))

theorem paraStr_ne_sep (q : ℚ) :
    ∀ c ∈ paraStr q, c ≠ '(' ∧ c ≠ ')' ∧ c ≠ ' ' ∧ c ≠ ',' ∧ c ≠ '\n' := by
  intro c hc
  rcases paraStr_chars q c hc with hd | rfl | rfl
  · obtain ⟨h1, h2, h3, h4, h5, _, _, _⟩ := isDigit_ne c hd
    exact ⟨h1, h2, h3, h4, h5⟩
  · refine ⟨by decide, by decide, by decide, by decide, by decide⟩
  · refine ⟨by decide, by decide, by decide, by decide, by decide⟩

theorem paraStr_not_paren (q : ℚ) : ∀ c ∈ paraStr q, isParen c = false := by
  intro c hc
  obtain ⟨h1, h2, _, _, _⟩ := paraStr_ne_sep q c hc
  unfold isParen
  cases hp : (c = '(' : Bool)
  · cases hp2 : (c = ')' : Bool)
    · rfl
    · exact absurd (by simpa using hp2) h2
  · exact absurd (by simpa using hp) h1

theorem paraStr_ne_nil (q : ℚ) : paraStr q ≠ [] := by
  unfold paraStr
  intro h
  rcases List.append_eq_nil.mp h with ⟨h1, _⟩
  rcases List.append_eq_nil.mp h1 with ⟨_, h2⟩
  exact natToStr_ne_nil _ h2

theorem parseNatStr_natToStr (n : Nat) :
    parseNatStr (natToStr n) = some n := by
  unfold parseNatStr
  rw [if_pos ⟨natToStr_ne_nil n, List.all_eq_true.mpr
    (fun c hc => natToStr_all_digits n c hc)⟩, strToNat_natToStr]

theorem parseUnsignedRat_print (num : Nat) (den : Nat) (hden : den ≠ 0) :
    parseUnsignedRat (natToStr num ++
      (if den = 1 then [] else '/' :: natToStr den)) =
      some ((num : ℚ) / den) := by
  by_cases h1 : den = 1
  · rw [if_pos h1]
    unfold parseUnsignedRat
    rw [List.append_nil, splitFirstChar_no_sep _ _
      (fun c hc => (isDigit_ne c (natToStr_all_digits _ c hc)).2.2.2.2.2.1)]
    dsimp only
    rw [parseNatStr_natToStr]
    simp [h1]
  · rw [if_neg h1]
    unfold parseUnsignedRat
    rw [splitFirstChar_append _ _ _
      (fun c hc => (isDigit_ne c (natToStr_all_digits _ c hc)).2.2.2.2.2.1)]
    dsimp only
    rw [parseNatStr_natToStr, parseNatStr_natToStr]
    dsimp only
    rw [if_neg hden]

theorem parsePara_paraStr (q : ℚ) : parsePara (paraStr q) = some q := by
  have hnotpi : paraStr q ≠ ['p', 'i'] := by
    intro he
    have hp : 'p' ∈ paraStr q := by rw [he]; simp
    rcases paraStr_chars q 'p' hp with hd | h | h
    · exact absurd hd (by decide)
    · exact absurd h (by decide)
    · exact absurd h (by decide)
  unfold parsePara
  rw [if_neg hnotpi]
  by_cases hq : q < 0
  · have hps : paraStr q = '-' :: (natToStr q.num.natAbs ++
        (if q.den = 1 then [] else '/' :: natToStr q.den)) := by
      unfold paraStr
      rw [if_pos hq]
      simp
    rw [hps]
    rw [if_pos (show ('-' :: (natToStr q.num.natAbs ++
        (if q.den = 1 then [] else '/' :: natToStr q.den))).headD ' ' = '-'
        from rfl)]
    rw [show ('-' :: (natToStr q.num.natAbs ++
        (if q.den = 1 then [] else '/' :: natToStr q.den))).tail =
        (natToStr q.num.natAbs ++
        (if q.den = 1 then [] else '/' :: natToStr q.den)) from rfl]
    rw [parseUnsignedRat_print _ _ q.den_nz]
    rw [show Option.map (fun q => -q) (some ((q.num.natAbs : ℚ) / q.den)) =
        some (-((q.num.natAbs : ℚ) / q.den)) from rfl]
    congr 1
    have h1 : (q.num.natAbs : ℤ) = -q.num :=
      Int.ofNat_natAbs_of_nonpos (le_of_lt (Rat.num_neg.mpr hq))
    have hcast : ((q.num.natAbs : ℕ) : ℚ) = -(q.num : ℚ) := by
      calc ((q.num.natAbs : ℕ) : ℚ) = (((q.num.natAbs : ℤ)) : ℚ) :=
            (Int.cast_natCast _).symm
        _ = ((-q.num : ℤ) : ℚ) := by rw [h1]
        _ = -((q.num : ℤ) : ℚ) := Int.cast_neg _
    rw [hcast, neg_div, neg_neg, Rat.num_div_den]
  · have hps : paraStr q = natToStr q.num.natAbs ++
        (if q.den = 1 then [] else '/' :: natToStr q.den) := by
      unfold paraStr
      rw [if_neg hq]
      simp
    rw [hps]
    have hhd : ((natToStr q.num.natAbs ++
        (if q.den = 1 then [] else '/' :: natToStr q.den)).headD ' ' = '-') =
        False := by
      rcases hn : natToStr q.num.natAbs with _ | ⟨c, cs⟩
      · exact absurd hn (natToStr_ne_nil _)
      · simp only [List.cons_append, List.headD_cons, eq_iff_iff, iff_false]
        have hcd : c.isDigit = true := by
          apply natToStr_all_digits q.num.natAbs
          rw [hn]
          simp
        exact (isDigit_ne c hcd).2.2.2.2.2.2.1
    rw [if_neg (by rw [hhd]; exact id)]
    rw [parseUnsignedRat_print _ _ q.den_nz]
    congr 1
    have h1 : (q.num.natAbs : ℤ) = q.num :=
      Int.natAbs_of_nonneg (Rat.num_nonneg.mpr (not_lt.mp hq))
    have hnum : ((q.num.natAbs : ℕ) : ℚ) = (q.num : ℚ) := by
      calc ((q.num.natAbs : ℕ) : ℚ) = (((q.num.natAbs : ℤ)) : ℚ) :=
            (Int.cast_natCast _).symm
        _ = ((q.num : ℤ) : ℚ) := by rw [h1]
    rw [hnum, Rat.num_div_den]

/-! ### splitlines of the exported text -/

theorem splitlinesAux_nil (cur : Str) :
    splitlinesAux [] cur = if cur = [] then [] else [cur.reverse] := rfl

theorem splitlinesAux_cons (c : Char) (s cur : Str) :
    splitlinesAux (c :: s) cur =
      if c = '\n' then cur.reverse :: splitlinesAux s []
      else splitlinesAux s (c :: cur) := rfl

theorem splitlinesAux_line (l : Str) (hn : ∀ c ∈ l, c ≠ '\n') :
    ∀ rest cur, splitlinesAux (l ++ '\n' :: rest) cur =
      (cur.reverse ++ l) :: splitlinesAux rest [] := by
  induction l with
  | nil =>
    intro rest cur
    rw [List.nil_append, splitlinesAux_cons, if_pos rfl, List.append_nil]
  | cons c l ih =>
    intro rest cur
    rw [List.cons_append, splitlinesAux_cons, if_neg (hn c (by simp)),
      ih (fun c hc => hn c (by simp [hc])) rest (c :: cur)]
    simp

theorem splitlines_join (lines : List Str)
    (h : ∀ l ∈ lines, ∀ c ∈ l, c ≠ '\n') :
    splitlines ((lines.map fun l => l ++ ['\n']).flatten) = lines := by
  induction lines with
  | nil => rfl
  | cons l ls ih =>
    unfold splitlines
    rw [List.map_cons, List.flatten_cons]
    have he : (l ++ ['\n']) ++ (ls.map fun l => l ++ ['\n']).flatten =
        l ++ '\n' :: (ls.map fun l => l ++ ['\n']).flatten := by simp
    rw [he, splitlinesAux_line l (h l (by simp)) _ [], List.reverse_nil,
      List.nil_append]
    exact congrArg (l :: ·) (ih fun l hl => h l (by simp [hl]))

/-! ### The exported lines contain no newline -/

theorem natToStr_ne_nl (p : Nat) : ∀ c ∈ natToStr p, c ≠ '\n' :=
  fun c hc => (isDigit_ne c (natToStr_all_digits p c hc)).2.2.2.2.1

theorem qref_ne_nl (p : Nat) : ∀ c ∈ qref p, c ≠ '\n' := by
  intro c hc
  unfold qref at hc
  rcases List.mem_cons.mp hc with rfl | hc2
  · decide
  rcases List.mem_cons.mp hc2 with rfl | hc3
  · decide
  rcases List.mem_append.mp hc3 with h1 | h1
  · exact natToStr_ne_nl p c h1
  · have : c = ']' := by simpa using h1
    subst this
    decide

theorem joinCommaQrefs_ne_nl (ps : List Nat) :
    ∀ c ∈ joinCommaQrefs ps, c ≠ '\n' := by
  induction ps with
  | nil => intro c hc; simp [joinCommaQrefs] at hc
  | cons p ps ih =>
    intro c hc
    match ps with
    | [] => exact qref_ne_nl p c hc
    | p2 :: ps2 =>
      rcases List.mem_append.mp hc with h1 | h1
      · exact qref_ne_nl p c h1
      · rcases List.mem_cons.mp h1 with rfl | h2
        · decide
        · exact ih c h2

theorem lowerName_ne_nl (g : QGate) : ∀ c ∈ lowerName g, c ≠ '\n' := by
  intro c hc he
  subst he
  revert hc
  cases g <;> simp only [lowerName, QGate.name] <;> decide

theorem gateQasmLine_ne_nl (g : QGate) : ∀ c ∈ gateQasmLine g, c ≠ '\n' := by
  intro c hc
  unfold gateQasmLine at hc
  split at hc
  · rcases List.mem_append.mp hc with h1 | h1
    · fin_cases h1 <;> decide
    · rcases List.mem_append.mp h1 with h2 | h2
      · exact joinCommaQrefs_ne_nl _ c h2
      · have : c = ';' := by simpa using h2
        subst this; decide
  · split at hc
    · rcases List.mem_append.mp hc with h1 | h1
      · exact lowerName_ne_nl _ c h1
      rcases List.mem_cons.mp h1 with rfl | h2
      · decide
      rcases List.mem_append.mp h2 with h3 | h3
      · exact (paraStr_ne_sep _ c h3).2.2.2.2
      rcases List.mem_cons.mp h3 with rfl | h4
      · decide
      rcases List.mem_cons.mp h4 with rfl | h5
      · decide
      rcases List.mem_append.mp h5 with h6 | h6
      · exact qref_ne_nl _ c h6
      · have : c = ';' := by simpa using h6
        subst this; decide
    · split at hc
      · rcases List.mem_append.mp hc with h1 | h1
        · exact lowerName_ne_nl _ c h1
        rcases List.mem_cons.mp h1 with rfl | h2
        · decide
        rcases List.mem_append.mp h2 with h3 | h3
        · exact qref_ne_nl _ c h3
        · have : c = ';' := by simpa using h3
          subst this; decide
      · rcases List.mem_append.mp hc with h1 | h1
        · exact lowerName_ne_nl _ c h1
        rcases List.mem_cons.mp h1 with rfl | h2
        · decide
        rcases List.mem_append.mp h2 with h3 | h3
        · exact qref_ne_nl _ c h3
        rcases List.mem_cons.mp h3 with rfl | h4
        · decide
        rcases List.mem_append.mp h4 with h5 | h5
        · exact qref_ne_nl _ c h5
        · have : c = ';' := by simpa using h5
          subst this; decide

theorem measQasmLine_ne_nl (kv : Nat × Nat) :
    ∀ c ∈ measQasmLine kv, c ≠ '\n' := by
  intro c hc
  unfold measQasmLine at hc
  rcases List.mem_append.mp hc with h1 | h1
  · fin_cases h1 <;> decide
  rcases List.mem_append.mp h1 with h2 | h2
  · exact qref_ne_nl _ c h2
  rcases List.mem_cons.mp h2 with rfl | h3
  · decide
  rcases List.mem_cons.mp h3 with rfl | h4
  · decide
  rcases List.mem_cons.mp h4 with rfl | h5
  · decide
  rcases List.mem_cons.mp h5 with rfl | h6
  · decide
  rcases List.mem_cons.mp h6 with rfl | h7
  · decide
  rcases List.mem_cons.mp h7 with rfl | h8
  · decide
  rcases List.mem_cons.mp h8 with rfl | h9
  · decide
  rcases List.mem_cons.mp h9 with rfl | h10
  · decide
  rcases List.mem_cons.mp h10 with rfl | h11
  · decide
  rcases List.mem_append.mp h11 with h12 | h12
  · exact natToStr_ne_nl _ c h12
  rcases List.mem_cons.mp h12 with rfl | h13
  · decide
  · have : c = ';' := by simpa using h13
    subst this; decide

theorem qasmLines_ne_nl (c : QuantumCircuit) :
    ∀ l ∈ qasmLines c, ∀ ch ∈ l, ch ≠ '\n' := by
  intro l hl
  unfold qasmLines at hl
  rcases List.mem_append.mp hl with h1 | h1
  · rcases List.mem_append.mp h1 with h2 | h2
    · rcases List.mem_cons.mp h2 with rfl | h3
      · decide
      rcases List.mem_cons.mp h3 with rfl | h4
      · decide
      rcases List.mem_cons.mp h4 with rfl | h5
      · intro ch hch
        rcases List.mem_cons.mp hch with rfl | hc2
        · decide
        rcases List.mem_cons.mp hc2 with rfl | hc3
        · decide
        rcases List.mem_cons.mp hc3 with rfl | hc4
        · decide
        rcases List.mem_cons.mp hc4 with rfl | hc5
        · decide
        rcases List.mem_cons.mp hc5 with rfl | hc6
        · decide
        rcases List.mem_append.mp hc6 with hc7 | hc7
        · exact qref_ne_nl _ ch hc7
        · have : ch = ';' := by simpa using hc7
          subst this; decide
      · have : l = 'c' :: 'r' :: 'e' :: 'g' :: ' ' :: 'm' :: 'e' :: 'a' ::
            's' :: '[' :: (natToStr c.measures.length ++ (']' :: [';'])) := by
          simpa using h5
        subst this
        intro ch hch
        rcases List.mem_cons.mp hch with rfl | hc2
        · decide
        rcases List.mem_cons.mp hc2 with rfl | hc3
        · decide
        rcases List.mem_cons.mp hc3 with rfl | hc4
        · decide
        rcases List.mem_cons.mp hc4 with rfl | hc5
        · decide
        rcases List.mem_cons.mp hc5 with rfl | hc6
        · decide
        rcases List.mem_cons.mp hc6 with rfl | hc7
        · decide
        rcases List.mem_cons.mp hc7 with rfl | hc8
        · decide
        rcases List.mem_cons.mp hc8 with rfl | hc9
        · decide
        rcases List.mem_cons.mp hc9 with rfl | hc10
        · decide
        rcases List.mem_cons.mp hc10 with rfl | hc11
        · decide
        rcases List.mem_append.mp hc11 with hc12 | hc12
        · exact natToStr_ne_nl _ ch hc12
        rcases List.mem_cons.mp hc12 with rfl | hc13
        · decide
        · have : ch = ';' := by simpa using hc13
          subst this; decide
    · obtain ⟨g, _, rfl⟩ := List.mem_map.mp h2
      exact gateQasmLine_ne_nl g
  · obtain ⟨kv, _, rfl⟩ := List.mem_map.mp h1
    exact measQasmLine_ne_nl kv

theorem splitlines_to_openqasm (c : QuantumCircuit) :
    splitlines (to_openqasm c) = qasmLines c :=
  splitlines_join (qasmLines c) (qasmLines_ne_nl c)

/-! ### lineInts on the exported operand strings -/

theorem digitRuns_nil : digitRuns [] = [] := rfl

theorem lineInts_qref_semi (p : Nat) : lineInts (qref p ++ [';']) = [p] := by
  unfold lineInts
  rw [digitRuns_qref p [';'] (Or.inr ⟨';', [], rfl, by decide⟩),
    digitRuns_nondigit_cons ';' [] (by decide), digitRuns_nil,
    List.map_cons, List.map_nil, strToNat_natToStr]

theorem lineInts_two_qubit (a b : Nat) :
    lineInts (qref a ++ (',' :: (qref b ++ [';']))) = [a, b] := by
  unfold lineInts
  rw [digitRuns_qref a _ (Or.inr ⟨',', _, rfl, by decide⟩),
    digitRuns_nondigit_cons ',' _ (by decide),
    digitRuns_qref b [';'] (Or.inr ⟨';', [], rfl, by decide⟩),
    digitRuns_nondigit_cons ';' [] (by decide), digitRuns_nil,
    List.map_cons, List.map_cons, List.map_nil,
    strToNat_natToStr, strToNat_natToStr]

theorem digitRuns_joinComma (ps : List Nat) :
    digitRuns (joinCommaQrefs ps ++ [';']) = ps.map natToStr := by
  induction ps with
  | nil =>
    show digitRuns ([] ++ [';']) = []
    rw [List.nil_append, digitRuns_nondigit_cons ';' [] (by decide),
      digitRuns_nil]
  | cons p ps ih =>
    rcases ps with _ | ⟨p2, ps2⟩
    · show digitRuns (qref p ++ [';']) = [natToStr p]
      rw [digitRuns_qref p [';'] (Or.inr ⟨';', [], rfl, by decide⟩),
        digitRuns_nondigit_cons ';' [] (by decide), digitRuns_nil]
    · show digitRuns ((qref p ++ (',' :: joinCommaQrefs (p2 :: ps2))) ++
        [';']) = _
      rw [List.append_assoc, List.cons_append,
        digitRuns_qref p _ (Or.inr ⟨',', _, rfl, by decide⟩),
        digitRuns_nondigit_cons ',' _ (by decide), ih]
      simp only [List.map_cons]

theorem lineInts_joinComma (ps : List Nat) :
    lineInts (joinCommaQrefs ps ++ [';']) = ps := by
  unfold lineInts
  rw [digitRuns_joinComma, List.map_map]
  have h : ∀ p ∈ ps, (strToNat ∘ natToStr) p = id p := fun p _ =>
    strToNat_natToStr p
  rw [List.map_congr_left h, List.map_id]

theorem lineInts_measure_rest (k v : Nat) :
    lineInts (qref k ++ (' ' :: '-' :: '>' :: ' ' :: ('m' :: 'e' :: 'a' ::
      's' :: '[' :: (natToStr v ++ (']' :: [';']))))) = [k, v] := by
  unfold lineInts
  rw [digitRuns_qref k _ (Or.inr ⟨' ', _, rfl, by decide⟩),
    digitRuns_nondigit_cons ' ' _ (by decide),
    digitRuns_nondigit_cons '-' _ (by decide),
    digitRuns_nondigit_cons '>' _ (by decide),
    digitRuns_nondigit_cons ' ' _ (by decide),
    digitRuns_nondigit_cons 'm' _ (by decide),
    digitRuns_nondigit_cons 'e' _ (by decide),
    digitRuns_nondigit_cons 'a' _ (by decide),
    digitRuns_nondigit_cons 's' _ (by decide),
    digitRuns_nondigit_cons '[' _ (by decide),
    digitRuns_digits_append (natToStr v) _ (natToStr_ne_nil v)
      (natToStr_all_digits v) (Or.inr ⟨']', [';'], rfl, by decide⟩),
    digitRuns_nondigit_cons ']' _ (by decide),
    digitRuns_nondigit_cons ';' [] (by decide), digitRuns_nil,
    List.map_cons, List.map_cons, List.map_nil,
    strToNat_natToStr, strToNat_natToStr]

/-! ### Per-line behaviour of the importer -/

theorem processLine_qreg (s : ImportState) (n : Nat) :
    processLine s ('q' :: 'r' :: 'e' :: 'g' :: ' ' :: (qref n ++ [';'])) =
      some {s with circ := {s.circ with num := n}} := by
  unfold processLine
  rw [if_neg (by simp)]
  have hsplit : splitFirstChar ' '
      ('q' :: 'r' :: 'e' :: 'g' :: ' ' :: (qref n ++ [';'])) =
      (['q', 'r', 'e', 'g'], some (qref n ++ [';'])) :=
    splitFirstChar_append ' ' ['q', 'r', 'e', 'g'] _ (by decide)
  dsimp only
  rw [hsplit]
  dsimp only
  rw [if_pos rfl, lineInts_qref_semi n]

theorem processLine_creg (s : ImportState) (r : Str) :
    processLine s ('c' :: 'r' :: 'e' :: 'g' :: ' ' :: r) = some s := by
  unfold processLine
  rw [if_neg (by simp)]
  have hsplit : splitFirstChar ' ' ('c' :: 'r' :: 'e' :: 'g' :: ' ' :: r) =
      (['c', 'r', 'e', 'g'], some r) :=
    splitFirstChar_append ' ' ['c', 'r', 'e', 'g'] _ (by decide)
  dsimp only
  rw [hsplit]
  dsimp only
  rw [if_neg (by decide), if_pos rfl]

theorem processLine_measure (s : ImportState) (kv : Nat × Nat) :
    processLine s (measQasmLine kv) =
      some {s with
        circ := {s.circ with
          measures := dictInsert s.circ.measures kv.1 kv.2},
        measured_qubits := s.measured_qubits ++ [kv.1]} := by
  unfold processLine measQasmLine
  rw [if_neg (by simp)]
  have hsplit : splitFirstChar ' '
      (('m' :: 'e' :: 'a' :: 's' :: 'u' :: 'r' :: 'e' :: [' ']) ++
        (qref kv.1 ++ (' ' :: '-' :: '>' :: ' ' ::
          ('m' :: 'e' :: 'a' :: 's' :: '[' ::
            (natToStr kv.2 ++ (']' :: [';'])))))) =
      (['m', 'e', 'a', 's', 'u', 'r', 'e'], some (qref kv.1 ++
        (' ' :: '-' :: '>' :: ' ' :: ('m' :: 'e' :: 'a' :: 's' :: '[' ::
          (natToStr kv.2 ++ (']' :: [';'])))))) := by
    have he : (('m' :: 'e' :: 'a' :: 's' :: 'u' :: 'r' :: 'e' :: [' ']) ++
        (qref kv.1 ++ (' ' :: '-' :: '>' :: ' ' ::
          ('m' :: 'e' :: 'a' :: 's' :: '[' ::
            (natToStr kv.2 ++ (']' :: [';'])))))) =
        ['m', 'e', 'a', 's', 'u', 'r', 'e'] ++ ' ' :: (qref kv.1 ++
        (' ' :: '-' :: '>' :: ' ' :: ('m' :: 'e' :: 'a' :: 's' :: '[' ::
          (natToStr kv.2 ++ (']' :: [';']))))) := by simp
    rw [he]
    exact splitFirstChar_append ' ' ['m', 'e', 'a', 's', 'u', 'r', 'e'] _
      (by decide)
  dsimp only
  rw [hsplit]
  dsimp only
  rw [if_neg (by decide), if_neg (by decide), if_pos rfl,
    lineInts_measure_rest kv.1 kv.2]

/-- Shape of `processLine` on a gate statement (anything whose mnemonic
part is not `qreg`/`creg`/`measure`/`barrier`) none of whose operands has
been measured. -/
theorem processLine_gate_eval (s : ImportState) (w r : Str)
    (hw : ∀ c ∈ w, c ≠ ' ')
    (h1 : w ≠ ['q', 'r', 'e', 'g']) (h2 : w ≠ ['c', 'r', 'e', 'g'])
    (h3 : w ≠ ['m', 'e', 'a', 's', 'u', 'r', 'e'])
    (h4 : w ≠ ['b', 'a', 'r', 'r', 'i', 'e', 'r'])
    (hvalid : (lineInts r).any (fun p => p ∈ s.measured_qubits) = false) :
    processLine s (w ++ ' ' :: r) =
      (if (splitOnChar '(' w).length > 1 then
        match (splitOnChar ','
            (stripParens ((splitOnChar '(' w).getD 1 []))).mapM parsePara with
        | none => none
        | some pvals => dispatchGate ((splitOnChar '(' w).headD [])
            (lineInts r) (some pvals) {s with lastParas := some pvals}
      else dispatchGate ((splitOnChar '(' w).headD []) (lineInts r)
        s.lastParas s) := by
  unfold processLine
  rw [if_neg (by simp)]
  dsimp only
  rw [splitFirstChar_append ' ' w r hw]
  dsimp only
  rw [if_neg h1, if_neg h2, if_neg h3, hvalid]
  rw [if_neg h4]
  simp only [Bool.false_eq_true, if_false]
  by_cases h : (splitOnChar '(' w).length > 1
  · rw [dif_pos h, if_pos h]
  · rw [dif_neg h, if_neg h]

theorem mapM_parsePara_single (q : ℚ) :
    ([paraStr q]).mapM parsePara = some [q] := by
  rw [List.mapM_cons, parsePara_paraStr, List.mapM_nil]
  rfl

/-- On the statement the exporter emits for a gate, the importer appends
exactly that gate back (provided nothing has been measured yet and, for
rotation gates, the parameter is nonzero so the builder does not drop
it), and updates the leaking `paras` local as `lastParasAfter`
describes. -/
theorem processLine_gateQasmLine (s : ImportState) (g : QGate)
    (hm : s.measured_qubits = []) (hp : paraNonzero g) :
    processLine s (gateQasmLine g) =
      some {s with
        circ := {s.circ with gates := s.circ.gates ++ [g]},
        lastParas := lastParasAfter g s.lastParas} := by
  cases g with
  | HGate p =>
    rw [show gateQasmLine (QGate.HGate p) =
        ['h'] ++ ' ' :: (qref p ++ [';']) from rfl,
      processLine_gate_eval s ['h'] _ (by decide) (by decide) (by decide)
        (by decide) (by decide) (by simp [hm]),
      if_neg (by decide), lineInts_qref_semi]
    rfl
  | XGate p =>
    rw [show gateQasmLine (QGate.XGate p) =
        ['x'] ++ ' ' :: (qref p ++ [';']) from rfl,
      processLine_gate_eval s ['x'] _ (by decide) (by decide) (by decide)
        (by decide) (by decide) (by simp [hm]),
      if_neg (by decide), lineInts_qref_semi]
    rfl
  | YGate p =>
    rw [show gateQasmLine (QGate.YGate p) =
        ['y'] ++ ' ' :: (qref p ++ [';']) from rfl,
      processLine_gate_eval s ['y'] _ (by decide) (by decide) (by decide)
        (by decide) (by decide) (by simp [hm]),
      if_neg (by decide), lineInts_qref_semi]
    rfl
  | ZGate p =>
    rw [show gateQasmLine (QGate.ZGate p) =
        ['z'] ++ ' ' :: (qref p ++ [';']) from rfl,
      processLine_gate_eval s ['z'] _ (by decide) (by decide) (by decide)
        (by decide) (by decide) (by simp [hm]),
      if_neg (by decide), lineInts_qref_semi]
    rfl
  | RXGate p a =>
    have ha : a ≠ 0 := hp
    have hline : gateQasmLine (QGate.RXGate p a) =
        ('r' :: 'x' :: '(' :: (paraStr a ++ [')'])) ++
          ' ' :: (qref p ++ [';']) := by
      show ['r', 'x'] ++ ('(' :: (paraStr a ++ (')' :: ' ' ::
        (qref p ++ [';'])))) = _
      simp
    have hw : ∀ c ∈ 'r' :: 'x' :: '(' :: (paraStr a ++ [')']), c ≠ ' ' := by
      intro c hc
      rcases List.mem_cons.mp hc with rfl | hc
      · decide
      rcases List.mem_cons.mp hc with rfl | hc
      · decide
      rcases List.mem_cons.mp hc with rfl | hc
      · decide
      rcases List.mem_append.mp hc with h1 | h1
      · exact (paraStr_ne_sep a c h1).2.2.1
      · rw [List.mem_singleton] at h1
        subst h1
        decide
    have hsp : splitOnChar '(' ('r' :: 'x' :: '(' :: (paraStr a ++ [')'])) =
        [['r', 'x'], paraStr a ++ [')']] := by
      have := splitOnChar_one_sep '(' ['r', 'x'] (paraStr a ++ [')'])
        (by decide)
        (by
          intro c hc
          rcases List.mem_append.mp hc with h1 | h1
          · exact (paraStr_ne_sep a c h1).1
          · rw [List.mem_singleton] at h1
            subst h1
            decide)
      simpa using this
    rw [hline,
      processLine_gate_eval s _ _ hw (by simp) (by simp) (by simp) (by simp)
        (by simp [hm]),
      hsp, if_pos (by simp), lineInts_qref_semi]
    show (match (splitOnChar ',' (stripParens (paraStr a ++ [')']))).mapM
        parsePara with
      | none => none
      | some pvals => dispatchGate ['r', 'x'] [p] (some pvals)
          {s with lastParas := some pvals}) = _
    rw [stripParens_wrap (paraStr a) (paraStr_ne_nil a) (paraStr_not_paren a),
      splitOnChar_no_sep ',' (paraStr a)
        (fun c hc => (paraStr_ne_sep a c hc).2.2.2.1),
      mapM_parsePara_single]
    show dispatchGate ['r', 'x'] [p] (some [a])
        {s with lastParas := some [a]} = _
    rw [show dispatchGate ['r', 'x'] [p] (some [a])
        {s with lastParas := some [a]} =
        some {s with circ := s.circ.rx p a, lastParas := some [a]} from rfl]
    unfold QuantumCircuit.rx
    rw [if_pos ha]
    rfl
  | RYGate p a =>
    have ha : a ≠ 0 := hp
    have hline : gateQasmLine (QGate.RYGate p a) =
        ('r' :: 'y' :: '(' :: (paraStr a ++ [')'])) ++
          ' ' :: (qref p ++ [';']) := by
      show ['r', 'y'] ++ ('(' :: (paraStr a ++ (')' :: ' ' ::
        (qref p ++ [';'])))) = _
      simp
    have hw : ∀ c ∈ 'r' :: 'y' :: '(' :: (paraStr a ++ [')']), c ≠ ' ' := by
      intro c hc
      rcases List.mem_cons.mp hc with rfl | hc
      · decide
      rcases List.mem_cons.mp hc with rfl | hc
      · decide
      rcases List.mem_cons.mp hc with rfl | hc
      · decide
      rcases List.mem_append.mp hc with h1 | h1
      · exact (paraStr_ne_sep a c h1).2.2.1
      · rw [List.mem_singleton] at h1
        subst h1
        decide
    have hsp : splitOnChar '(' ('r' :: 'y' :: '(' :: (paraStr a ++ [')'])) =
        [['r', 'y'], paraStr a ++ [')']] := by
      have := splitOnChar_one_sep '(' ['r', 'y'] (paraStr a ++ [')'])
        (by decide)
        (by
          intro c hc
          rcases List.mem_append.mp hc with h1 | h1
          · exact (paraStr_ne_sep a c h1).1
          · rw [List.mem_singleton] at h1
            subst h1
            decide)
      simpa using this
    rw [hline,
      processLine_gate_eval s _ _ hw (by simp) (by simp) (by simp) (by simp)
        (by simp [hm]),
      hsp, if_pos (by simp), lineInts_qref_semi]
    show (match (splitOnChar ',' (stripParens (paraStr a ++ [')']))).mapM
        parsePara with
      | none => none
      | some pvals => dispatchGate ['r', 'y'] [p] (some pvals)
          {s with lastParas := some pvals}) = _
    rw [stripParens_wrap (paraStr a) (paraStr_ne_nil a) (paraStr_not_paren a),
      splitOnChar_no_sep ',' (paraStr a)
        (fun c hc => (paraStr_ne_sep a c hc).2.2.2.1),
      mapM_parsePara_single]
    show dispatchGate ['r', 'y'] [p] (some [a])
        {s with lastParas := some [a]} = _
    rw [show dispatchGate ['r', 'y'] [p] (some [a])
        {s with lastParas := some [a]} =
        some {s with circ := s.circ.ry p a, lastParas := some [a]} from rfl]
    unfold QuantumCircuit.ry
    rw [if_pos ha]
    rfl
  | RZGate p a =>
    have ha : a ≠ 0 := hp
    have hline : gateQasmLine (QGate.RZGate p a) =
        ('r' :: 'z' :: '(' :: (paraStr a ++ [')'])) ++
          ' ' :: (qref p ++ [';']) := by
      show ['r', 'z'] ++ ('(' :: (paraStr a ++ (')' :: ' ' ::
        (qref p ++ [';'])))) = _
      simp
    have hw : ∀ c ∈ 'r' :: 'z' :: '(' :: (paraStr a ++ [')']), c ≠ ' ' := by
      intro c hc
      rcases List.mem_cons.mp hc with rfl | hc
      · decide
      rcases List.mem_cons.mp hc with rfl | hc
      · decide
      rcases List.mem_cons.mp hc with rfl | hc
      · decide
      rcases List.mem_append.mp hc with h1 | h1
      · exact (paraStr_ne_sep a c h1).2.2.1
      · rw [List.mem_singleton] at h1
        subst h1
        decide
    have hsp : splitOnChar '(' ('r' :: 'z' :: '(' :: (paraStr a ++ [')'])) =
        [['r', 'z'], paraStr a ++ [')']] := by
      have := splitOnChar_one_sep '(' ['r', 'z'] (paraStr a ++ [')'])
        (by decide)
        (by
          intro c hc
          rcases List.mem_append.mp hc with h1 | h1
          · exact (paraStr_ne_sep a c h1).1
          · rw [List.mem_singleton] at h1
            subst h1
            decide)
      simpa using this
    rw [hline,
      processLine_gate_eval s _ _ hw (by simp) (by simp) (by simp) (by simp)
        (by simp [hm]),
      hsp, if_pos (by simp), lineInts_qref_semi]
    show (match (splitOnChar ',' (stripParens (paraStr a ++ [')']))).mapM
        parsePara with
      | none => none
      | some pvals => dispatchGate ['r', 'z'] [p] (some pvals)
          {s with lastParas := some pvals}) = _
    rw [stripParens_wrap (paraStr a) (paraStr_ne_nil a) (paraStr_not_paren a),
      splitOnChar_no_sep ',' (paraStr a)
        (fun c hc => (paraStr_ne_sep a c hc).2.2.2.1),
      mapM_parsePara_single]
    show dispatchGate ['r', 'z'] [p] (some [a])
        {s with lastParas := some [a]} = _
    rw [show dispatchGate ['r', 'z'] [p] (some [a])
        {s with lastParas := some [a]} =
        some {s with circ := s.circ.rz p a, lastParas := some [a]} from rfl]
    unfold QuantumCircuit.rz
    rw [if_pos ha]
    rfl
  | CXGate a b =>
    rw [show gateQasmLine (QGate.CXGate a b) =
        ['c', 'x'] ++ ' ' :: (qref a ++ (',' :: (qref b ++ [';']))) from rfl,
      processLine_gate_eval s ['c', 'x'] _ (by decide) (by decide)
        (by decide) (by decide) (by decide) (by simp [hm]),
      if_neg (by decide), lineInts_two_qubit]
    rfl
  | CYGate a b =>
    rw [show gateQasmLine (QGate.CYGate a b) =
        ['c', 'y'] ++ ' ' :: (qref a ++ (',' :: (qref b ++ [';']))) from rfl,
      processLine_gate_eval s ['c', 'y'] _ (by decide) (by decide)
        (by decide) (by decide) (by decide) (by simp [hm]),
      if_neg (by decide), lineInts_two_qubit]
    rfl
  | CZGate a b =>
    rw [show gateQasmLine (QGate.CZGate a b) =
        ['c', 'z'] ++ ' ' :: (qref a ++ (',' :: (qref b ++ [';']))) from rfl,
      processLine_gate_eval s ['c', 'z'] _ (by decide) (by decide)
        (by decide) (by decide) (by decide) (by simp [hm]),
      if_neg (by decide), lineInts_two_qubit]
    rfl
  | SwapGate a b =>
    rw [show gateQasmLine (QGate.SwapGate a b) =
        ['s', 'w', 'a', 'p'] ++ ' ' :: (qref a ++ (',' :: (qref b ++ [';'])))
        from rfl,
      processLine_gate_eval s ['s', 'w', 'a', 'p'] _ (by decide) (by decide)
        (by decide) (by decide) (by decide) (by simp [hm]),
      if_neg (by decide), lineInts_two_qubit]
    rfl
  | Barrier ps =>
    rw [show gateQasmLine (QGate.Barrier ps) =
        ['b', 'a', 'r', 'r', 'i', 'e', 'r'] ++
          ' ' :: (joinCommaQrefs ps ++ [';']) from rfl]
    unfold processLine
    rw [if_neg (by simp)]
    dsimp only
    rw [splitFirstChar_append ' ' _ _ (by decide)]
    dsimp only
    rw [if_neg (by decide), if_neg (by decide), if_neg (by decide),
      lineInts_joinComma, hm]
    rw [show (ps.any fun p => p ∈ ([] : List Nat)) = false by simp]
    simp only [Bool.false_eq_true, if_false]
    rw [if_pos trivial]
    rfl

theorem importLines_cons (s : ImportState) (l : Str) (rest : List Str) :
    importLines s (l :: rest) = match processLine s l with
      | none => none
      | some s2 => importLines s2 rest := rfl

theorem importLines_append : ∀ (l1 l2 : List Str) (s : ImportState),
    importLines s (l1 ++ l2) = match importLines s l1 with
      | none => none
      | some s2 => importLines s2 l2 := by
  intro l1
  induction l1 with
  | nil => intro l2 s; rfl
  | cons l rest ih =>
    intro l2 s
    rw [List.cons_append, importLines_cons, importLines_cons]
    cases processLine s l with
    | none => rfl
    | some s2 =>
      dsimp only
      rw [ih]

/-- Importing the block of exported gate statements appends exactly the
original gates and threads the leaking `paras` local through
`lastParasAfter`. -/
theorem importLines_gateLines : ∀ (gs : List QGate) (s : ImportState),
    s.measured_qubits = [] → (∀ g ∈ gs, paraNonzero g) →
    importLines s (gs.map gateQasmLine) =
      some {s with
        circ := {s.circ with gates := s.circ.gates ++ gs},
        lastParas := gs.foldl (fun pr g => lastParasAfter g pr)
          s.lastParas} := by
  intro gs
  induction gs with
  | nil =>
    intro s _ _
    rw [List.map_nil]
    show some s = _
    rw [List.foldl_nil, show s.circ.gates ++ ([] : List QGate) = s.circ.gates
      from List.append_nil _]
  | cons g gs ih =>
    intro s hm hp
    rw [List.map_cons, importLines_cons,
      processLine_gateQasmLine s g hm (hp g (by simp))]
    dsimp only
    have ihall := ih
      {s with
        circ := {s.circ with gates := s.circ.gates ++ [g]}
        lastParas := lastParasAfter g s.lastParas}
      hm (fun g2 h2 => hp g2 (by simp [h2]))
    rw [ihall]
    dsimp only
    simp only [List.append_assoc, List.singleton_append, List.foldl_cons]

/-- Importing the block of exported measure statements inserts the pairs
into the measurement dict in order and appends the measured qubits. -/
theorem importLines_measLines : ∀ (ms : List (Nat × Nat)) (s : ImportState),
    importLines s (ms.map measQasmLine) =
      some {s with
        circ := {s.circ with
          measures := ms.foldl (fun d kv => dictInsert d kv.1 kv.2)
            s.circ.measures},
        measured_qubits := s.measured_qubits ++ ms.map Prod.fst} := by
  intro ms
  induction ms with
  | nil =>
    intro s
    rw [List.map_nil]
    show some s = _
    rw [List.foldl_nil, List.map_nil, List.append_nil]
  | cons kv ms ih =>
    intro s
    rw [List.map_cons, importLines_cons, processLine_measure]
    dsimp only
    rw [ih]
    dsimp only
    rw [List.map_cons, List.foldl_cons, List.append_assoc]
    rfl

/-- C3 (amended): exporting a circuit whose rotation parameters are all
nonzero and importing the text back yields the same gate list — in
particular the same mnemonics and operand positions in the same program
order — and a valid import (`global_valid = true`; the export writes all
measure statements after all gate statements, so the post-measurement
check never fires on exported text). -/
theorem claim_C3_qasm_roundtrip (c c0 : QuantumCircuit)
    (hp : ∀ g ∈ c.gates, paraNonzero g) :
    ∃ c2, from_openqasm c0 (to_openqasm c) = some (c2, true) ∧
      c2.gates = c.gates ∧
      c2.gates.map (fun g => (lowerName g, g.positions)) =
        c.gates.map (fun g => (lowerName g, g.positions)) := by
  unfold from_openqasm
  dsimp only
  rw [splitlines_to_openqasm]
  rw [show (qasmLines c).drop 2 =
      ('q' :: 'r' :: 'e' :: 'g' :: ' ' :: (qref c.num ++ [';'])) ::
        ('c' :: 'r' :: 'e' :: 'g' :: ' ' :: ('m' :: 'e' :: 'a' :: 's' ::
          '[' :: (natToStr c.measures.length ++ (']' :: [';'])))) ::
        (c.gates.map gateQasmLine ++ c.measures.map measQasmLine) from rfl]
  rw [importLines_cons, processLine_qreg]
  dsimp only
  rw [importLines_cons, processLine_creg]
  dsimp only
  rw [importLines_append]
  have hGL := importLines_gateLines c.gates
    { circ :=
        { num := c.num
          shots := c0.shots
          tomo := c0.tomo
          gates := []
          measures := []
          openqasm := to_openqasm c }
      measured_qubits := []
      global_valid := true
      lastParas := none }
    rfl hp
  rw [hGL]
  dsimp only
  rw [importLines_measLines]
  dsimp only
  have hg : ([] : List QGate) ++ c.gates = c.gates := List.nil_append c.gates
  exact ⟨_, rfl, hg,
    congrArg (List.map fun g => (lowerName g, g.positions)) hg⟩

/-- C3 counterexample to the literal claim: the importer's `rx` mnemonic
is recognized, yet a circuit carrying a zero-parameter `RXGate` does not
round-trip — the exported `rx(0) q[0];` statement is re-imported through
the `rx` builder, which silently drops a zero rotation, so the resulting
gate list loses the gate (different mnemonic/position list). -/
theorem claim_C3_qasm_roundtrip_counterexample :
    (from_openqasm (QuantumCircuit.init 1)
        (to_openqasm ⟨1, 1000, false, [QGate.RXGate 0 0], [(0, 0)], []⟩)).map
      (fun r => r.1.gates.map fun g => (lowerName g, g.positions)) =
      some [] ∧
    (some ([] : List (Str × List Nat)) ≠
      some (([QGate.RXGate 0 0] : List QGate).map
        fun g => (lowerName g, g.positions))) :=
  ⟨by decide, by decide⟩

theorem claim_C3_qasm_roundtrip_witness :
    ∃ c2, from_openqasm (QuantumCircuit.init 2) (to_openqasm bellCircuit) =
        some (c2, true) ∧
      c2.gates = bellCircuit.gates ∧
      c2.gates.map (fun g => (lowerName g, g.positions)) =
        bellCircuit.gates.map (fun g => (lowerName g, g.positions)) :=
  claim_C3_qasm_roundtrip bellCircuit (QuantumCircuit.init 2) (by decide)

/-- A gate statement one of whose integer operands has already been
measured is dropped: the importer leaves the circuit untouched and only
clears `global_valid`. -/
theorem processLine_measured_hit (s : ImportState) (w r : Str) (q : Nat)
    (hw : ∀ c ∈ w, c ≠ ' ')
    (h1 : w ≠ ['q', 'r', 'e', 'g']) (h2 : w ≠ ['c', 'r', 'e', 'g'])
    (h3 : w ≠ ['m', 'e', 'a', 's', 'u', 'r', 'e'])
    (hq : q ∈ lineInts r) (hmem : q ∈ s.measured_qubits) :
    processLine s (w ++ ' ' :: r) = some {s with global_valid := false} := by
  unfold processLine
  rw [if_neg (by simp)]
  dsimp only
  rw [splitFirstChar_append ' ' w r hw]
  dsimp only
  rw [if_neg h1, if_neg h2, if_neg h3,
    show ((lineInts r).any fun p => p ∈ s.measured_qubits) = true from
      List.any_eq_true.mpr ⟨q, hq, decide_eq_true hmem⟩]
  rw [if_pos rfl]

/-- The gate dispatch never touches `measured_qubits` or `global_valid`. -/
theorem dispatchGate_state (gn : Str) (inds : List Nat)
    (ps : Option (List ℚ)) (t s2 : ImportState)
    (h : dispatchGate gn inds ps t = some s2) :
    s2.measured_qubits = t.measured_qubits ∧
      s2.global_valid = t.global_valid := by
  unfold dispatchGate at h
  by_cases hc0 : gn = ['c', 'x']
  · rw [if_pos hc0] at h
    rcases inds with _ | ⟨a, inds2⟩
    · exact Option.noConfusion h
    rcases inds2 with _ | ⟨b, inds3⟩
    · exact Option.noConfusion h
    dsimp only at h
    rw [Option.some.injEq] at h
    subst h
    exact ⟨rfl, rfl⟩
  rw [if_neg hc0] at h
  by_cases hc1 : gn = ['c', 'y']
  · rw [if_pos hc1] at h
    rcases inds with _ | ⟨a, inds2⟩
    · exact Option.noConfusion h
    rcases inds2 with _ | ⟨b, inds3⟩
    · exact Option.noConfusion h
    dsimp only at h
    rw [Option.some.injEq] at h
    subst h
    exact ⟨rfl, rfl⟩
  rw [if_neg hc1] at h
  by_cases hc2 : gn = ['c', 'z']
  · rw [if_pos hc2] at h
    rcases inds with _ | ⟨a, inds2⟩
    · exact Option.noConfusion h
    rcases inds2 with _ | ⟨b, inds3⟩
    · exact Option.noConfusion h
    dsimp only at h
    rw [Option.some.injEq] at h
    subst h
    exact ⟨rfl, rfl⟩
  rw [if_neg hc2] at h
  by_cases hc3 : gn = ['s', 'w', 'a', 'p']
  · rw [if_pos hc3] at h
    rcases inds with _ | ⟨a, inds2⟩
    · exact Option.noConfusion h
    rcases inds2 with _ | ⟨b, inds3⟩
    · exact Option.noConfusion h
    dsimp only at h
    rw [Option.some.injEq] at h
    subst h
    exact ⟨rfl, rfl⟩
  rw [if_neg hc3] at h
  by_cases hc4 : gn = ['r', 'x']
  · rw [if_pos hc4] at h
    rcases inds with _ | ⟨a, inds2⟩
    · exact Option.noConfusion h
    rcases ps with _ | q0
    · exact Option.noConfusion h
    rcases q0 with _ | ⟨p0, q1⟩
    · exact Option.noConfusion h
    dsimp only at h
    rw [Option.some.injEq] at h
    subst h
    exact ⟨rfl, rfl⟩
  rw [if_neg hc4] at h
  by_cases hc5 : gn = ['r', 'y']
  · rw [if_pos hc5] at h
    rcases inds with _ | ⟨a, inds2⟩
    · exact Option.noConfusion h
    rcases ps with _ | q0
    · exact Option.noConfusion h
    rcases q0 with _ | ⟨p0, q1⟩
    · exact Option.noConfusion h
    dsimp only at h
    rw [Option.some.injEq] at h
    subst h
    exact ⟨rfl, rfl⟩
  rw [if_neg hc5] at h
  by_cases hc6 : gn = ['r', 'z']
  · rw [if_pos hc6] at h
    rcases inds with _ | ⟨a, inds2⟩
    · exact Option.noConfusion h
    rcases ps with _ | q0
    · exact Option.noConfusion h
    rcases q0 with _ | ⟨p0, q1⟩
    · exact Option.noConfusion h
    dsimp only at h
    rw [Option.some.injEq] at h
    subst h
    exact ⟨rfl, rfl⟩
  rw [if_neg hc6] at h
  by_cases hc7 : gn = ['x']
  · rw [if_pos hc7] at h
    rcases inds with _ | ⟨a, inds2⟩
    · exact Option.noConfusion h
    dsimp only at h
    rw [Option.some.injEq] at h
    subst h
    exact ⟨rfl, rfl⟩
  rw [if_neg hc7] at h
  by_cases hc8 : gn = ['y']
  · rw [if_pos hc8] at h
    rcases inds with _ | ⟨a, inds2⟩
    · exact Option.noConfusion h
    dsimp only at h
    rw [Option.some.injEq] at h
    subst h
    exact ⟨rfl, rfl⟩
  rw [if_neg hc8] at h
  by_cases hc9 : gn = ['z']
  · rw [if_pos hc9] at h
    rcases inds with _ | ⟨a, inds2⟩
    · exact Option.noConfusion h
    dsimp only at h
    rw [Option.some.injEq] at h
    subst h
    exact ⟨rfl, rfl⟩
  rw [if_neg hc9] at h
  by_cases hc10 : gn = ['h']
  · rw [if_pos hc10] at h
    rcases inds with _ | ⟨a, inds2⟩
    · exact Option.noConfusion h
    dsimp only at h
    rw [Option.some.injEq] at h
    subst h
    exact ⟨rfl, rfl⟩
  rw [if_neg hc10] at h
  by_cases hc11 : gn = ['u', '1']
  · rw [if_pos hc11] at h
    rcases inds with _ | ⟨a, inds2⟩
    · exact Option.noConfusion h
    rcases ps with _ | q0
    · exact Option.noConfusion h
    rcases q0 with _ | ⟨p0, q1⟩
    · exact Option.noConfusion h
    dsimp only at h
    rw [Option.some.injEq] at h
    subst h
    exact ⟨rfl, rfl⟩
  rw [if_neg hc11] at h
  by_cases hc12 : gn = ['u', '2']
  · rw [if_pos hc12] at h
    rcases inds with _ | ⟨a, inds2⟩
    · exact Option.noConfusion h
    rcases ps with _ | q0
    · exact Option.noConfusion h
    rcases q0 with _ | ⟨p0, q1⟩
    · exact Option.noConfusion h
    rcases q1 with _ | ⟨p1, q2⟩
    · exact Option.noConfusion h
    dsimp only at h
    rw [Option.some.injEq] at h
    subst h
    exact ⟨rfl, rfl⟩
  rw [if_neg hc12] at h
  by_cases hc13 : gn = ['u', '3']
  · rw [if_pos hc13] at h
    rcases inds with _ | ⟨a, inds2⟩
    · exact Option.noConfusion h
    rcases ps with _ | q0
    · exact Option.noConfusion h
    rcases q0 with _ | ⟨p0, q1⟩
    · exact Option.noConfusion h
    rcases q1 with _ | ⟨p1, q2⟩
    · exact Option.noConfusion h
    rcases q2 with _ | ⟨p2, q3⟩
    · exact Option.noConfusion h
    dsimp only at h
    rw [Option.some.injEq] at h
    subst h
    exact ⟨rfl, rfl⟩
  rw [if_neg hc13] at h
  rw [Option.some.injEq] at h
  subst h
  exact ⟨rfl, rfl⟩

/-- Per line: the set of measured qubits never shrinks, and a cleared
validity flag stays cleared. -/
theorem processLine_state (s s2 : ImportState) (l : Str)
    (h : processLine s l = some s2) :
    (∀ q ∈ s.measured_qubits, q ∈ s2.measured_qubits) ∧
      (s.global_valid = false → s2.global_valid = false) := by
  unfold processLine at h
  by_cases hnil : l = []
  · rw [if_pos hnil, Option.some.injEq] at h
    subst h
    exact ⟨fun q hq => hq, fun hv => hv⟩
  rw [if_neg hnil] at h
  dsimp only at h
  by_cases hq : (splitFirstChar ' ' l).1 = ['q', 'r', 'e', 'g']
  · rw [if_pos hq] at h
    rcases hs : (splitFirstChar ' ' l).2 with _ | qbs
    · rw [hs] at h
      exact Option.noConfusion h
    rw [hs] at h
    dsimp only at h
    rcases hli : lineInts qbs with _ | ⟨n, rest⟩
    · rw [hli] at h
      exact Option.noConfusion h
    rw [hli] at h
    dsimp only at h
    rw [Option.some.injEq] at h
    subst h
    exact ⟨fun q hq2 => hq2, fun hv => hv⟩
  rw [if_neg hq] at h
  by_cases hcr : (splitFirstChar ' ' l).1 = ['c', 'r', 'e', 'g']
  · rw [if_pos hcr, Option.some.injEq] at h
    subst h
    exact ⟨fun q hq2 => hq2, fun hv => hv⟩
  rw [if_neg hcr] at h
  by_cases hme : (splitFirstChar ' ' l).1 = ['m', 'e', 'a', 's', 'u', 'r', 'e']
  · rw [if_pos hme] at h
    rcases hs : (splitFirstChar ' ' l).2 with _ | qbs
    · rw [hs] at h
      exact Option.noConfusion h
    rw [hs] at h
    dsimp only at h
    rcases hli : lineInts qbs with _ | ⟨mb, rest⟩
    · rw [hli] at h
      exact Option.noConfusion h
    rcases rest with _ | ⟨cb, rest2⟩
    · rw [hli] at h
      exact Option.noConfusion h
    rw [hli] at h
    dsimp only at h
    rw [Option.some.injEq] at h
    subst h
    exact ⟨fun q hq2 => List.mem_append_left _ hq2, fun hv => hv⟩
  rw [if_neg hme] at h
  rcases hs : (splitFirstChar ' ' l).2 with _ | qbs
  · rw [hs] at h
    exact Option.noConfusion h
  rw [hs] at h
  dsimp only at h
  cases hany : ((lineInts qbs).any fun p => p ∈ s.measured_qubits) with
  | true =>
    rw [hany, if_pos rfl, Option.some.injEq] at h
    subst h
    exact ⟨fun q hq2 => hq2, fun _ => rfl⟩
  | false =>
    rw [hany] at h
    simp only [Bool.false_eq_true, if_false] at h
    by_cases hb : (splitFirstChar ' ' l).1 = ['b', 'a', 'r', 'r', 'i', 'e', 'r']
    · rw [if_pos hb, Option.some.injEq] at h
      subst h
      exact ⟨fun q hq2 => hq2, fun hv => hv⟩
    rw [if_neg hb] at h
    by_cases hsp : (splitOnChar '(' (splitFirstChar ' ' l).1).length > 1
    · rw [dif_pos hsp] at h
      rcases hpv : (splitOnChar ','
          (stripParens ((splitOnChar '(' (splitFirstChar ' ' l).1).getD 1
            []))).mapM parsePara with _ | pvals
      · rw [hpv] at h
        exact Option.noConfusion h
      rw [hpv] at h
      dsimp only at h
      obtain ⟨hmq, hgv⟩ := dispatchGate_state _ _ _ _ _ h
      exact ⟨fun q hq2 => by rw [hmq]; exact hq2,
        fun hv => by rw [hgv]; exact hv⟩
    · rw [dif_neg hsp] at h
      obtain ⟨hmq, hgv⟩ := dispatchGate_state _ _ _ _ _ h
      exact ⟨fun q hq2 => by rw [hmq]; exact hq2,
        fun hv => by rw [hgv]; exact hv⟩

theorem importLines_state : ∀ (L : List Str) (s s2 : ImportState),
    importLines s L = some s2 →
    (∀ q ∈ s.measured_qubits, q ∈ s2.measured_qubits) ∧
      (s.global_valid = false → s2.global_valid = false) := by
  intro L
  induction L with
  | nil =>
    intro s s2 h
    rw [show importLines s [] = some s from rfl, Option.some.injEq] at h
    subst h
    exact ⟨fun q hq => hq, fun hv => hv⟩
  | cons l rest ih =>
    intro s s2 h
    rw [importLines_cons] at h
    cases hpl : processLine s l with
    | none =>
      rw [hpl] at h
      exact Option.noConfusion h
    | some s1 =>
      rw [hpl] at h
      dsimp only at h
      obtain ⟨m1, v1⟩ := processLine_state s s1 l hpl
      obtain ⟨m2, v2⟩ := ih s1 s2 h
      exact ⟨fun q hq => m2 q (m1 q hq), fun hv => v2 (v1 hv)⟩

/-- C4: an OpenQASM input whose line list (after the two header lines)
contains a gate statement `w ++ ' ' :: r` one of whose integer operands
`q` was measured by an earlier `measure` statement.  The importer drops
that gate — processing its line returns the state unchanged except for
clearing `global_valid` — and the whole import completes as if the line
were absent, returning `global_valid = false` (a warning, not an
exception). -/
theorem claim_C4_post_measurement_rejected
    (c : QuantumCircuit) (text : Str) (pre mid post : List Str)
    (q cb : Nat) (w r : Str) (s1 s2 : ImportState)
    (hsplit : (splitlines text).drop 2 =
      pre ++ measQasmLine (q, cb) :: (mid ++ (w ++ ' ' :: r) :: post))
    (h1 : importLines ⟨⟨c.num, c.shots, c.tomo, [], [], text⟩, [], true,
      none⟩ pre = some s1)
    (h2 : importLines ⟨⟨s1.circ.num, s1.circ.shots, s1.circ.tomo,
      s1.circ.gates, dictInsert s1.circ.measures q cb, s1.circ.openqasm⟩,
      s1.measured_qubits ++ [q], s1.global_valid, s1.lastParas⟩ mid =
      some s2)
    (hw : ∀ ch ∈ w, ch ≠ ' ')
    (hq1 : w ≠ ['q', 'r', 'e', 'g']) (hq2 : w ≠ ['c', 'r', 'e', 'g'])
    (hq3 : w ≠ ['m', 'e', 'a', 's', 'u', 'r', 'e'])
    (hr : q ∈ lineInts r) :
    processLine s2 (w ++ ' ' :: r) = some {s2 with global_valid := false} ∧
    from_openqasm c text =
      (importLines {s2 with global_valid := false} post).map
        (fun s3 => (measuresDefaulted s3.circ, false)) := by
  have hmem : q ∈ s2.measured_qubits := by
    have hst := (importLines_state mid _ s2 h2).1 q
    apply hst
    show q ∈ s1.measured_qubits ++ [q]
    exact List.mem_append_right _ (by simp)
  refine ⟨processLine_measured_hit s2 w r q hw hq1 hq2 hq3 hr hmem, ?_⟩
  unfold from_openqasm
  dsimp only
  rw [hsplit, importLines_append, h1]
  dsimp only
  rw [importLines_cons, processLine_measure s1 (q, cb)]
  dsimp only
  rw [importLines_append, h2]
  dsimp only
  rw [importLines_cons,
    processLine_measured_hit s2 w r q hw hq1 hq2 hq3 hr hmem]
  dsimp only
  cases hres : importLines {s2 with global_valid := false} post with
  | none => rfl
  | some s3 =>
    have hv : s3.global_valid = false :=
      (importLines_state post _ s3 hres).2 rfl
    dsimp only
    rw [hv]
    rfl

theorem claim_C4_post_measurement_rejected_witness :
    processLine c4s2 (['h'] ++ ' ' :: "q[0];".toList) =
        some {c4s2 with global_valid := false} ∧
    from_openqasm (QuantumCircuit.init 2) c4Text =
      (importLines {c4s2 with global_valid := false} []).map
        (fun s3 => (measuresDefaulted s3.circ, false)) :=
  claim_C4_post_measurement_rejected (QuantumCircuit.init 2) c4Text
    ["qreg q[2];".toList] [] [] 0 0 ['h'] ("q[0];".toList) c4s1 c4s2
    (by decide) (by decide) (by decide) (by decide) (by decide) (by decide)
    (by decide) (by decide)

end Quafu
